import Mathlib

/-!
Delta-Main table engine: `Table::get`, `Table::insert`, `Table::update`,
`Table::remove`, `Table::runGC`, and the column-map aggregation code.

A shallow embedding of `src/deltamain/Table.cpp`.  The table is a value
(`Table`) that every operation takes and returns; C++ out-parameters are
returned next to the result; a `while` loop is a function recursive on a fuel
argument that returns `none` when the fuel runs out before the loop has left,
so "the call never returns" reads "the result is `none` for every fuel".

The execution model is the sequential one: a single thread runs the call and
no other thread touches the table meanwhile.  A busy-wait on an entry that is
not sealed therefore spins without changing anything.

`Table.cpp` includes `Record.hpp`, `Log.hpp`, `Page.hpp` and `InsertMap.hpp`
and uses the hash table and the page manager; what it needs of them is modelled
from the specification (sections 3 and 4.1 to 4.4) and marked as such, and
`Page::gc` and `DMRecord::spaceOverhead` are parameters.

`Table::runGC` is embedded a second time with the `PageList` objects on a heap
and `mPages` a pointer into it, to say which object a statement writes; that
embedding returns the state reached also when the fuel runs out.

The last part embeds `src/deltamain/colstore/LLVMColumnMapAggregation.cpp`: the
code `LLVMColumnMapAggregationBuilder::build` emits for one aggregated integer
field, instruction by instruction.  A vector is a function from the lane to its
value, an integer value is its signed value, a 64-bit addition is taken modulo
`2^64`, the lanes a shuffle leaves undefined are parameters, and a pointer into
a column is the row it stands at.
-/

namespace DeltaMain

/-! ## Data model -/

/-- Keys are `uint64_t`; no arithmetic is done on them. -/
abbrev Key := Nat

/-- Versions are `uint64_t` transaction timestamps; only compared. -/
abbrev Version := Nat

/-- A payload is the byte span `(size, data)` the caller hands over. -/
abbrev Payload := List Nat

/-- Modelled from the spec: the snapshot descriptor `{version, visible(v)}` of
section 6, with a pure visibility predicate. -/
structure SnapshotDescriptor where
  version : Version
  visible : Version → Bool

/-- Modelled from the spec: the type byte of a `DMRecord` (section 4.4): the
three log-entry variants named in `Table.cpp`, and the main-tier multi-version
chunk. -/
inductive RecType
  | LOG_INSERT
  | LOG_UPDATE
  | LOG_DELETE
  | MULTI_VERSION_RECORD
  deriving DecidableEq

/-- Modelled from the spec: one node of a version chain (section 3): a version
with a payload, or with none when the node is a delete marker. -/
structure VersionNode where
  version : Version
  payload : Option Payload
  deriving DecidableEq

/-- Modelled from the spec: a record as `Table.cpp` sees it through
`DMRecord`/`CDMRecord`: type byte, key, the terminal reverted flag, and the
logical version chain reachable from it, newest first (section 3, "Logical
form").  A freshly written log entry has the one-node chain
`[(version, payload)]`: nothing follows it, its `previous` is null. -/
structure DMRecord where
  type : RecType
  key : Key
  reverted : Bool
  chain : List VersionNode
  deriving DecidableEq

/-- What `DMRecord::data(snapshot, size, isNewest, isValid, &wasDeleted)`
hands back: the returned pointer (`none` is `nullptr`) and the four
out-parameters. -/
structure DataResult where
  data : Option Payload
  size : Nat
  isNewest : Bool
  isValid : Bool
  wasDeleted : Bool
  deriving DecidableEq

/-- Modelled from the spec: the first node of a chain that the snapshot sees
(section 4.4: "walks the version chain ... returning the first version visible
to `snapshot`"). -/
def firstVisible (snapshot : SnapshotDescriptor) : List VersionNode → Option VersionNode
  | [] => none
  | n :: rest => if snapshot.visible n.version then some n else firstVisible snapshot rest

/-- Modelled from the spec: `isValidDataRecord()` is false for reverted
entries (section 4.4). -/
def DMRecord.isValidDataRecord (rec : DMRecord) : Bool :=
  !rec.reverted

/-- Modelled from the spec: `DMRecord::data` (section 4.4).  The chosen version
is the first one of the chain visible to the snapshot; `isNewest` is true iff
the chosen version is the first node of the chain; `wasDeleted` is true iff the
chosen version is a delete marker; `isValid` is false iff the record was
reverted.  When no version is visible there is no chosen version: the pointer
is null and neither `isNewest` nor `wasDeleted` holds. -/
def DMRecord.data (rec : DMRecord) (snapshot : SnapshotDescriptor) : DataResult :=
  match rec.chain with
  | [] => ⟨none, 0, false, !rec.reverted, false⟩
  | n :: rest =>
    if snapshot.visible n.version then
      ⟨n.payload, (n.payload.getD []).length, true, !rec.reverted, n.payload.isNone⟩
    else
      match firstVisible snapshot rest with
      | some m => ⟨m.payload, (m.payload.getD []).length, false, !rec.reverted, m.payload.isNone⟩
      | none => ⟨none, 0, false, !rec.reverted, false⟩

/-- Modelled from the spec: `DMRecord::revert(version)` marks a just-written
log entry as reverted (section 4.4). -/
def DMRecord.revert (rec : DMRecord) (_version : Version) : DMRecord :=
  { rec with reverted := true }

/-- What `DMRecord::update(nextPtr, isValid, snapshot)` leaves behind: the
record it was called on, the new entry, the `isValid` out-parameter and the
returned flag. -/
structure UpdateResult where
  head : DMRecord
  next : DMRecord
  isValid : Bool
  ok : Bool
  deriving DecidableEq

/-- Modelled from the spec: `DMRecord::update` (section 4.4).  It fails when the
chain holds a version the snapshot does not cover; otherwise the new entry's
`previous` is set to the current head and the head is swung to the new entry,
so that both now reach the chain `new :: old`. -/
def DMRecord.update (rec next : DMRecord) (snapshot : SnapshotDescriptor) : UpdateResult :=
  if rec.chain.all (fun n => snapshot.visible n.version) then
    ⟨{ rec with chain := next.chain ++ rec.chain },
     { next with chain := next.chain ++ rec.chain }, !rec.reverted, true⟩
  else
    ⟨rec, next, !rec.reverted, false⟩

/-- Modelled from the spec: a log entry (section 4.2): the sealed flag of its
header, the reserved size, and the record stored in it. -/
structure LogEntry where
  sealed : Bool
  size : Nat
  record : DMRecord
  deriving DecidableEq

/-- Modelled from the spec: a log is the sequence of its entries in append
order (section 4.2).  An iterator is a position in that order: `begin()` is
position `0` and `end()` is the position behind the last entry at the time of
the call (section 4.5, insert, step 1: "Snapshot the insert-log iterator
position `it0 .. it_end`"). -/
abbrev Log := List LogEntry

/-- The content of reserved, not yet written log space. -/
def LogEntry.blank : LogEntry :=
  ⟨false, 0, ⟨RecType.LOG_INSERT, 0, false, []⟩⟩

/-- Dereferencing the iterator at position `i` (`iter->`, `iter.operator->()`).
Every position below a captured `end()` holds an entry. -/
def Log.entryAt (log : Log) (i : Nat) : LogEntry :=
  log.getD i LogEntry.blank

/-- Modelled from the spec: `Log::append(size)` reserves an entry behind all
others and returns it writable and not sealed (section 4.2).  The result is
the new log and the position of the reserved entry. -/
def Log.append (log : Log) (size : Nat) : Log × Nat :=
  (log ++ [{ LogEntry.blank with size := size }], log.length)

/-- Writing the record of the entry at position `i` (through `entry->data()`). -/
def Log.writeRecord (log : Log) (i : Nat) (rec : DMRecord) : Log :=
  log.set i { log.entryAt i with record := rec }

/-- Modelled from the spec: `entry.seal()` publishes the entry (section 4.2). -/
def Log.seal (log : Log) (i : Nat) : Log :=
  log.set i { log.entryAt i with sealed := true }

/-- Modelled from the spec: the hash table maps a key to its main-tier record,
if any (section 4.3).  The pointer it returns is followed at once, so the
table holds the record itself. -/
abbrev HashTable := List (Key × DMRecord)

/-- Modelled from the spec: `HashTable::get(k)` (section 4.3); `none` is the
null pointer. -/
def HashTable.get (ht : HashTable) (key : Key) : Option DMRecord :=
  ht.lookup key

/-- Storing through the pointer that `HashTable::get(key)` returned. -/
def HashTable.store (ht : HashTable) (key : Key) (rec : DMRecord) : HashTable :=
  match ht with
  | [] => []
  | (k, r) :: rest =>
    if key == k then (k, rec) :: rest else (k, r) :: HashTable.store rest key rec

/-- A page list (`std::vector<char*>`): page addresses, `none` for a null
pointer. -/
abbrev PageList := List (Option Nat)

/-- The members of `Table` that its operations read or write.  `mPageManager`
is the next free page of the bump allocator (section 4.1). -/
structure Table where
  mHashTable : HashTable
  mInsertLog : Log
  mUpdateLog : Log
  mPages : PageList
  mPageManager : Nat
  deriving DecidableEq

/-! ## `Table::get` -/

/-- The out-parameters `size`, `data` and `isNewest` of `Table::get`. -/
structure GetOut where
  size : Nat
  data : Option Payload
  isNewest : Bool
  deriving DecidableEq

/-- The values `rec.data(snapshot, size, isNewest, ...)` stores into the
out-parameters of `Table::get`. -/
def DataResult.out (r : DataResult) : GetOut :=
  ⟨r.size, r.data, r.isNewest⟩

/-- The insert-log scan of `Table::get` (Table.cpp lines 38-54), over the
entries from the iterator position on; `out` holds the out-parameters as
written so far. -/
def Table.getScan (key : Key) (snapshot : SnapshotDescriptor) : List LogEntry → GetOut → Bool × GetOut
  | [], out => (false, out)
  | e :: rest, out =>
    if !e.sealed then Table.getScan key snapshot rest out
    else if e.record.isValidDataRecord && e.record.key == key then
      let r := e.record.data snapshot
      if r.isNewest && r.wasDeleted then Table.getScan key snapshot rest r.out
      else (!r.wasDeleted, r.out)
    else Table.getScan key snapshot rest out

/-- `Table::get` (Table.cpp lines 20-55): the returned flag and the
out-parameters afterwards; `out` is what the caller's variables held before. -/
def Table.get (t : Table) (key : Key) (out : GetOut) (snapshot : SnapshotDescriptor) : Bool × GetOut :=
  match t.mHashTable.get key with
  | some rec =>
    let r := rec.data snapshot
    if r.isValid && !(r.wasDeleted && r.isNewest) then (!r.wasDeleted, r.out)
    else Table.getScan key snapshot t.mInsertLog r.out
  | none => Table.getScan key snapshot t.mInsertLog out

/-! ## `Table::insert` -/

/-- How a call of `Table::insert` ends.  `succeeded` is the variable the
pointer of that name refers to, `none` when the pointer is null. -/
inductive InsertOutcome
  | returned (t : Table) (succeeded : Option Bool)
  | assertFailed (t : Table) (succeeded : Option Bool)
  | nullDeref (t : Table)
  deriving DecidableEq

/-- The statement `*succeeded = b` (Table.cpp lines 102 and 109): a store
through the pointer, whatever it is. -/
def InsertOutcome.storeAndReturn (t : Table) (succeeded : Option Bool) (b : Bool) : InsertOutcome :=
  match succeeded with
  | some _ => InsertOutcome.returned t (some b)
  | none => InsertOutcome.nullDeref t

/-- The re-scan loop of `Table::insert` (Table.cpp lines 96-113).  `entry` is
the position of the appended entry, `iter` and `iterEnd` the iterators taken on
entry.  One unit of fuel is one pass through the busy-wait or through the loop
body; the body has no `++iter`. -/
def Table.insertLoop (key : Key) (snapshot : SnapshotDescriptor) (entry iterEnd : Nat)
    (succeeded : Option Bool) : Nat → Table → Nat → Option InsertOutcome
  | 0, _, _ => none
  | fuel + 1, t, iter =>
    if iter != iterEnd then
      let en := t.mInsertLog.entryAt iter
      if !en.sealed then
        Table.insertLoop key snapshot entry iterEnd succeeded fuel t iter
      else if iter == entry then
        some (InsertOutcome.storeAndReturn
          { t with mInsertLog := t.mInsertLog.seal entry } succeeded true)
      else if en.record.isValidDataRecord && en.record.key == key then
        let insertRecord := (t.mInsertLog.entryAt entry).record.revert snapshot.version
        let log := (t.mInsertLog.writeRecord entry insertRecord).seal entry
        some (InsertOutcome.storeAndReturn { t with mInsertLog := log } succeeded false)
      else
        Table.insertLoop key snapshot entry iterEnd succeeded fuel t iter
    else
      some (InsertOutcome.assertFailed t succeeded)

/-- `Table::insert` (Table.cpp lines 57-114).  `spaceOverhead` stands for
`DMRecord::spaceOverhead`; `data` is the span `(size, data)`. -/
def Table.insert (spaceOverhead : RecType → Nat) (fuel : Nat) (t : Table) (key : Key)
    (data : Payload) (snapshot : SnapshotDescriptor) (succeeded : Option Bool) :
    Option InsertOutcome :=
  let iter := 0
  let iterEnd := t.mInsertLog.length
  let present :=
    match t.mHashTable.get key with
    | some rec =>
      let r := rec.data snapshot
      r.isValid && !(r.wasDeleted && r.isNewest)
    | none => false
  if present then
    some (InsertOutcome.returned t (succeeded.map (fun _ => false)))
  else
    let logEntrySize := data.length + spaceOverhead RecType.LOG_INSERT
    let (log, entry) := t.mInsertLog.append logEntrySize
    let insertRecord : DMRecord :=
      ⟨RecType.LOG_INSERT, key, false, [⟨snapshot.version, some data⟩]⟩
    let t1 := { t with mInsertLog := log.writeRecord entry insertRecord }
    Table.insertLoop key snapshot entry iterEnd succeeded fuel t1 iter

/-- The append of `Table::insert` and the writes into the new entry (Table.cpp
lines 86-95), taken by themselves: the table behind them and the position of
the new entry. -/
def Table.insertAppend (spaceOverhead : RecType → Nat) (key : Key) (data : Payload)
    (snapshot : SnapshotDescriptor) (t : Table) : Table × Nat :=
  let logEntrySize := data.length + spaceOverhead RecType.LOG_INSERT
  let (log, entry) := t.mInsertLog.append logEntrySize
  let insertRecord : DMRecord :=
    ⟨RecType.LOG_INSERT, key, false, [⟨snapshot.version, some data⟩]⟩
  ({ t with mInsertLog := log.writeRecord entry insertRecord }, entry)

/-! ## `Table::update`, `Table::remove`, `Table::genericUpdate` -/

/-- The pointer `ptr` of `Table::genericUpdate`: to the main-tier record the
hash table holds for a key, or to the record of an insert-log entry
(`iter->data()`). -/
inductive RecPtr
  | main (key : Key)
  | insertLog (pos : Nat)
  deriving DecidableEq

/-- The record behind a `RecPtr`. -/
def Table.deref (t : Table) : RecPtr → DMRecord
  | RecPtr.main key => (t.mHashTable.get key).getD LogEntry.blank.record
  | RecPtr.insertLog pos => (t.mInsertLog.entryAt pos).record

/-- Storing a record through a `RecPtr`. -/
def Table.storeRecord (t : Table) (ptr : RecPtr) (rec : DMRecord) : Table :=
  match ptr with
  | RecPtr.main key => { t with mHashTable := t.mHashTable.store key rec }
  | RecPtr.insertLog pos => { t with mInsertLog := t.mInsertLog.writeRecord pos rec }

/-- The insert-log scan of `Table::genericUpdate` (Table.cpp lines 171-178),
entered when the hash table has no record for the key.  The result is the
value of `ptr` behind the loop.  One unit of fuel is one pass through the loop
body; the body has no `++iter`. -/
def Table.genericUpdateScan (log : Log) (key : Key) (iterEnd : Nat) : Nat → Nat → Option (Option RecPtr)
  | 0, _ => none
  | fuel + 1, iter =>
    if iter != iterEnd then
      let record := (log.entryAt iter).record
      if record.isValidDataRecord && record.key == key then some (some (RecPtr.insertLog iter))
      else Table.genericUpdateScan log key iterEnd fuel iter
    else some none

/-- `Table::genericUpdate` (Table.cpp lines 162-190).  `appendFun` appends the
new entry to the update log and returns its position. -/
def Table.genericUpdate (appendFun : Table → Table × Nat) (fuel : Nat) (t : Table) (key : Key)
    (snapshot : SnapshotDescriptor) : Option (Table × Bool) :=
  let iter := 0
  let iterEnd := t.mInsertLog.length
  let found : Option (Option RecPtr) :=
    match t.mHashTable.get key with
    | some _ => some (some (RecPtr.main key))
    | none => Table.genericUpdateScan t.mInsertLog key iterEnd fuel iter
  match found with
  | none => none
  | some none => some (t, false)
  | some (some ptr) =>
    let (t1, nextPtr) := appendFun t
    let r := (t1.deref ptr).update (t1.mUpdateLog.entryAt nextPtr).record snapshot
    let t2 := t1.storeRecord ptr r.head
    some ({ t2 with mUpdateLog := t2.mUpdateLog.writeRecord nextPtr r.next }, r.ok)

/-- The lambda `fun` of `Table::update` (Table.cpp lines 131-144). -/
def Table.updateAppend (spaceOverhead : RecType → Nat) (key : Key) (data : Payload)
    (snapshot : SnapshotDescriptor) (t : Table) : Table × Nat :=
  let logEntrySize := data.length + spaceOverhead RecType.LOG_UPDATE
  let (log, entry) := t.mUpdateLog.append logEntrySize
  let updateRecord : DMRecord :=
    ⟨RecType.LOG_UPDATE, key, false, [⟨snapshot.version, some data⟩]⟩
  ({ t with mUpdateLog := log.writeRecord entry updateRecord }, entry)

/-- `Table::update` (Table.cpp lines 126-146). -/
def Table.update (spaceOverhead : RecType → Nat) (fuel : Nat) (t : Table) (key : Key)
    (data : Payload) (snapshot : SnapshotDescriptor) : Option (Table × Bool) :=
  Table.genericUpdate (Table.updateAppend spaceOverhead key data snapshot) fuel t key snapshot

/-- The lambda `fun` of `Table::remove` (Table.cpp lines 149-158). -/
def Table.removeAppend (spaceOverhead : RecType → Nat) (key : Key)
    (snapshot : SnapshotDescriptor) (t : Table) : Table × Nat :=
  let logEntrySize := spaceOverhead RecType.LOG_DELETE
  let (log, entry) := t.mUpdateLog.append logEntrySize
  let rmRecord : DMRecord :=
    ⟨RecType.LOG_DELETE, key, false, [⟨snapshot.version, none⟩]⟩
  ({ t with mUpdateLog := log.writeRecord entry rmRecord }, entry)

/-- `Table::remove` (Table.cpp lines 148-160). -/
def Table.remove (spaceOverhead : RecType → Nat) (fuel : Nat) (t : Table) (key : Key)
    (snapshot : SnapshotDescriptor) : Option (Table × Bool) :=
  Table.genericUpdate (Table.removeAppend spaceOverhead key snapshot) fuel t key snapshot

/-! ## `Table::runGC` -/

/-- Modelled from the spec: the `InsertMap` of `runGC` (section 4.6, step 1):
for each key the list of its insert-log entries, each given by its position
(`insIter->data()`). -/
abbrev InsertMap := List (Key × List Nat)

/-- The statement `insertMap[InsertMapKey(k)].push_back(p)`. -/
def InsertMap.pushBack (m : InsertMap) (k : Key) (p : Nat) : InsertMap :=
  match m with
  | [] => [(k, [p])]
  | (k1, ps) :: rest =>
    if k == k1 then (k1, ps ++ [p]) :: rest else (k1, ps) :: InsertMap.pushBack rest k p

/-- The first loop of `Table::runGC` (Table.cpp lines 199-204).  One unit of
fuel is one pass through the loop body; the body has no `++insIter`. -/
def Table.buildInsertMap (log : Log) (end_ : Nat) : Nat → Nat → InsertMap → Option InsertMap
  | 0, _, _ => none
  | fuel + 1, insIter, insertMap =>
    if insIter != end_ && (log.entryAt insIter).sealed then
      let record := (log.entryAt insIter).record
      if !record.isValidDataRecord then Table.buildInsertMap log end_ fuel insIter insertMap
      else
        let k := record.key
        Table.buildInsertMap log end_ fuel insIter (insertMap.pushBack k insIter)
    else some insertMap

/-- The page a `Page` object is constructed on: an element of the page list, or
the zeroed `dummyPage` on the stack of `runGC`. -/
inductive PageArg
  | page (ptr : Option Nat)
  | dummyPage
  deriving DecidableEq

/-- What one call `page.gc(minVersion, insertMap, fillPage, done)` leaves
behind: the returned pointer, `done`, the insert map, and the memory `Page::gc`
works on (the pages and the progress of the `Page` object). -/
structure GcResult (σ : Type) where
  newPtr : Option Nat
  done : Bool
  insertMap : InsertMap
  mem : σ

/-- `Page::gc` is a parameter: from the memory, the page, `minVersion`, the
insert map and the fill page to a `GcResult`. -/
abbrev PageGc (σ : Type) := σ → PageArg → Version → InsertMap → Option Nat → GcResult σ

/-- Modelled from the spec: `PageManager::alloc` of the bump allocator (section
4.1): the page handed out and the allocator afterwards. -/
def PageManager.alloc (pm : Nat) : Option Nat × Nat :=
  (some pm, pm + 1)

/-- The local variables of `Table::runGC` behind its first loop, and the memory
`Page::gc` works on. -/
structure GcLocals (σ : Type) where
  mem : σ
  pageManager : Nat
  insertMap : InsertMap
  nPages : PageList
  newPages : PageList
  fillPage : Option Nat

/-- The loop `while (!done)` of `Table::runGC` (Table.cpp lines 215-221) for the
slot `i`, whose `Page` object was constructed on `page`. -/
def Table.gcRetry {σ : Type} (gc : PageGc σ) (minVersion : Version) (page : PageArg) (i : Nat) :
    Nat → GcLocals σ → Bool → Option (GcLocals σ)
  | 0, _, _ => none
  | fuel + 1, l, done =>
    if !done then
      let newPages := if (l.nPages.getD i none).isSome then l.newPages ++ [l.nPages.getD i none]
        else l.newPages
      let (fillPage, pm) := PageManager.alloc l.pageManager
      let r := gc l.mem page minVersion l.insertMap fillPage
      Table.gcRetry gc minVersion page i fuel
        ⟨r.mem, pm, r.insertMap, l.nPages.set i r.newPtr, newPages, fillPage⟩ r.done
    else some l

/-- The loop over all pages of `Table::runGC` (Table.cpp lines 211-227). -/
def Table.gcPages {σ : Type} (gc : PageGc σ) (minVersion : Version) :
    Nat → GcLocals σ → Nat → Option (GcLocals σ)
  | 0, _, _ => none
  | fuel + 1, l, i =>
    if i < l.nPages.length then
      let page := PageArg.page (l.nPages.getD i none)
      let r := gc l.mem page minVersion l.insertMap l.fillPage
      let l1 : GcLocals σ :=
        ⟨r.mem, l.pageManager, r.insertMap, l.nPages.set i r.newPtr, l.newPages, l.fillPage⟩
      match Table.gcRetry gc minVersion page i fuel l1 r.done with
      | none => none
      | some l2 =>
        let l3 : GcLocals σ :=
          if (l2.nPages.getD i none).isNone then { l2 with nPages := l2.nPages.eraseIdx i } else l2
        Table.gcPages gc minVersion fuel l3 (i + 1)
    else some l

/-- The loop `while (!insertMap.empty())` of `Table::runGC` (Table.cpp lines
230-237). -/
def Table.gcInserts {σ : Type} (gc : PageGc σ) (minVersion : Version) :
    Nat → GcLocals σ → Option (GcLocals σ)
  | 0, _ => none
  | fuel + 1, l =>
    if !l.insertMap.isEmpty then
      let (fillPage, pm) := PageManager.alloc l.pageManager
      let r := gc l.mem PageArg.dummyPage minVersion l.insertMap fillPage
      Table.gcInserts gc minVersion fuel
        ⟨r.mem, pm, r.insertMap, l.nPages ++ [fillPage], l.newPages, fillPage⟩
    else some l

/-- `Table::runGC` (Table.cpp lines 192-240): the table and the memory of
`Page::gc` when the call returns. -/
def Table.runGC {σ : Type} (gc : PageGc σ) (fuel : Nat) (t : Table) (mem : σ)
    (minVersion : Version) : Option (Table × σ) :=
  let insIter := 0
  let end_ := t.mInsertLog.length
  match Table.buildInsertMap t.mInsertLog end_ fuel insIter [] with
  | none => none
  | some insertMap =>
    let roPages := t.mPages
    let nPages := roPages
    let (fillPage, pm) := PageManager.alloc t.mPageManager
    match Table.gcPages gc minVersion fuel ⟨mem, pm, insertMap, nPages, [], fillPage⟩ 0 with
    | none => none
    | some l =>
      match Table.gcInserts gc minVersion fuel l with
      | none => none
      | some l1 => some ({ t with mPages := l1.nPages, mPageManager := l1.pageManager }, l1.mem)

/-- A `Page::gc` together with a record of its calls: the memory is paired with
the list of the pages `gc` was invoked on, in order. -/
def PageGc.traced {σ : Type} (gc : PageGc σ) : PageGc (σ × List PageArg) :=
  fun mem page minVersion insertMap fillPage =>
    let r := gc mem.1 page minVersion insertMap fillPage
    ⟨r.newPtr, r.done, r.insertMap, (r.mem, mem.2 ++ [page])⟩

/-- One pass through the body of the loop `while (!insertMap.empty())` of
`Table::runGC` (Table.cpp lines 231-236): allocate a fresh page, run `gc` over
the dummy page, append the fresh page to `nPages`. -/
def Table.packRound {σ : Type} (gc : PageGc σ) (minVersion : Version) (l : GcLocals σ) :
    GcLocals σ :=
  let (fillPage, pm) := PageManager.alloc l.pageManager
  let r := gc l.mem PageArg.dummyPage minVersion l.insertMap fillPage
  ⟨r.mem, pm, r.insertMap, l.nPages ++ [fillPage], l.newPages, fillPage⟩

/-! ## `Table::runGC` with the page lists as shared objects -/

/-- The state `Table::runGC` works on behind its first loop, with the
`PageList` objects as the heap objects they are: `heap` holds the `PageList`
objects by address, `mPages` is the pointer the atomic member `mPages` holds,
the other fields are the locals of `runGC` and the memory `Page::gc` works on.
The local `nPages` is the object at the address `nPagesPtr`. -/
structure GcShared (σ : Type) where
  heap : List PageList
  mPages : Nat
  mem : σ
  pageManager : Nat
  insertMap : InsertMap
  newPages : PageList
  fillPage : Option Nat

/-- The reference `nPages = *nPagesPtr` (Table.cpp line 207). -/
def GcShared.nPages {σ : Type} (s : GcShared σ) (nPagesPtr : Nat) : PageList :=
  s.heap.getD nPagesPtr []

/-- The loop `while (!done)` of `Table::runGC` (Table.cpp lines 215-221) on the
shared state.  The state reached and whether the loop was left; with no fuel
left the state reached so far is returned. -/
def Table.gcRetryShared {σ : Type} (gc : PageGc σ) (minVersion : Version) (page : PageArg)
    (nPagesPtr i : Nat) : Nat → GcShared σ → Bool → GcShared σ × Bool
  | 0, s, _ => (s, false)
  | fuel + 1, s, done =>
    if !done then
      let nPages := s.nPages nPagesPtr
      let newPages := if (nPages.getD i none).isSome then s.newPages ++ [nPages.getD i none]
        else s.newPages
      let (fillPage, pm) := PageManager.alloc s.pageManager
      let r := gc s.mem page minVersion s.insertMap fillPage
      Table.gcRetryShared gc minVersion page nPagesPtr i fuel
        ⟨s.heap.set nPagesPtr (nPages.set i r.newPtr), s.mPages, r.mem, pm, r.insertMap, newPages,
          fillPage⟩ r.done
    else (s, true)

/-- The loop over all pages of `Table::runGC` (Table.cpp lines 211-227) on the
shared state. -/
def Table.gcPagesShared {σ : Type} (gc : PageGc σ) (minVersion : Version) (nPagesPtr : Nat) :
    Nat → GcShared σ → Nat → GcShared σ × Bool
  | 0, s, _ => (s, false)
  | fuel + 1, s, i =>
    let nPages := s.nPages nPagesPtr
    if i < nPages.length then
      let page := PageArg.page (nPages.getD i none)
      let r := gc s.mem page minVersion s.insertMap s.fillPage
      let s1 : GcShared σ :=
        ⟨s.heap.set nPagesPtr (nPages.set i r.newPtr), s.mPages, r.mem, s.pageManager,
          r.insertMap, s.newPages, s.fillPage⟩
      match Table.gcRetryShared gc minVersion page nPagesPtr i fuel s1 r.done with
      | (s2, false) => (s2, false)
      | (s2, true) =>
        let nPages2 := s2.nPages nPagesPtr
        let s3 : GcShared σ :=
          if (nPages2.getD i none).isNone then
            { s2 with heap := s2.heap.set nPagesPtr (nPages2.eraseIdx i) }
          else s2
        Table.gcPagesShared gc minVersion nPagesPtr fuel s3 (i + 1)
    else (s, true)

/-- The loop `while (!insertMap.empty())` of `Table::runGC` (Table.cpp lines
230-237) on the shared state. -/
def Table.gcInsertsShared {σ : Type} (gc : PageGc σ) (minVersion : Version) (nPagesPtr : Nat) :
    Nat → GcShared σ → GcShared σ × Bool
  | 0, s => (s, false)
  | fuel + 1, s =>
    if !s.insertMap.isEmpty then
      let (fillPage, pm) := PageManager.alloc s.pageManager
      let r := gc s.mem PageArg.dummyPage minVersion s.insertMap fillPage
      Table.gcInsertsShared gc minVersion nPagesPtr fuel
        ⟨s.heap.set nPagesPtr (s.nPages nPagesPtr ++ [fillPage]), s.mPages, r.mem, pm,
          r.insertMap, s.newPages, fillPage⟩
    else (s, true)

/-- The `PageList` objects and the pointer held by `mPages`, as other threads
see them. -/
structure SharedPages where
  heap : List PageList
  mPages : Nat
  deriving DecidableEq

/-- `Table::runGC` (Table.cpp lines 192-240) with `mPages` as the pointer it
is: the heap and the pointer at the point reached, and whether the call
returned.  `*mPages.load()` is the object at the address `mPages`; the object
`new (malloc(...)) PageList(roPages)` is a copy at an address not in use; the
insert log and the page manager are those of `t`, whose by-value field `mPages`
is not read. -/
def Table.runGCShared {σ : Type} (gc : PageGc σ) (fuel : Nat) (t : Table)
    (heap : List PageList) (mPages : Nat) (mem : σ) (minVersion : Version) :
    SharedPages × Bool :=
  let insIter := 0
  let end_ := t.mInsertLog.length
  match Table.buildInsertMap t.mInsertLog end_ fuel insIter [] with
  | none => (⟨heap, mPages⟩, false)
  | some insertMap =>
    let roPages := heap.getD mPages []
    let nPagesPtr := heap.length
    let heap := heap ++ [roPages]
    let (fillPage, pm) := PageManager.alloc t.mPageManager
    match Table.gcPagesShared gc minVersion nPagesPtr fuel
        ⟨heap, mPages, mem, pm, insertMap, [], fillPage⟩ 0 with
    | (s, false) => (⟨s.heap, s.mPages⟩, false)
    | (s, true) =>
      match Table.gcInsertsShared gc minVersion nPagesPtr fuel s with
      | (s1, false) => (⟨s1.heap, s1.mPages⟩, false)
      | (s1, true) => (⟨s1.heap, nPagesPtr⟩, true)

/-- The locals of the by-value `runGC` that a shared state stands for. -/
def GcShared.locals {σ : Type} (s : GcShared σ) (nPagesPtr : Nat) : GcLocals σ :=
  ⟨s.mem, s.pageManager, s.insertMap, s.nPages nPagesPtr, s.newPages, s.fillPage⟩

/-! ## `LLVMColumnMapAggregationBuilder::build`: the code emitted for one field -/

/-- The aggregation of a field (`AggregationType`). -/
inductive AggregationType
  | MIN
  | MAX
  | SUM
  | CNT
  deriving DecidableEq

/-- What `build` knows of an aggregated field when it emits the code: the
aggregation, whether the source and the destination field are nullable
(`!srcField.isNotNull()`, `!destField.isNotNull()`), and the number of lanes
`vectorSize = mRegisterWidth / (destFieldSize * 8)`. -/
structure AggField where
  aggregationType : AggregationType
  srcNullable : Bool
  destNullable : Bool
  vectorSize : Nat

/-- What the emitted code reads: the parameters `startIdx` and `endIdx`, the
`result` bytes, the source column and its null bytes, each by row index, and
the value and null byte of the destination field from the previous run.
Integer field values are given by their signed value. -/
structure AggInput where
  startIdx : Nat
  endIdx : Nat
  result : Nat → Nat
  src : Nat → Int
  srcNull : Nat → Nat
  destValue : Int
  destNullValue : Nat

/-- A 64-bit result of `CreateAdd`, as a signed value: the sum modulo `2^64`.
The lanes of `SUM` and `CNT` are 64-bit integers (`getInt64Vector`, lines 229
and 239). -/
def wrap64 (x : Int) : Int :=
  (x + 9223372036854775808) % 18446744073709551616 - 9223372036854775808

/-- The lambda `buildAggregation` (LLVMColumnMapAggregation.cpp lines 108-149)
on one lane, for integer fields.  `CreateSExt` keeps the signed value, and
`CreateZExt` of the `i1` is 0 or 1. -/
def buildAggregation (aggregationType : AggregationType) (src dest : Int) (result : Bool) : Int :=
  match aggregationType with
  | AggregationType.MIN =>
    let cond := decide (src < dest)
    let cond := result && cond
    if cond then src else dest
  | AggregationType.MAX =>
    let cond := decide (src > dest)
    let cond := result && cond
    if cond then src else dest
  | AggregationType.SUM =>
    let res := wrap64 (dest + src)
    if result then res else dest
  | AggregationType.CNT =>
    wrap64 (dest + (if result then 1 else 0))

/-- The result byte of a row as the loops use it (lines 291-301 and 469-477):
for a nullable source field it is and-ed with the null byte xor 1. -/
def maskedResult (field : AggField) (input : AggInput) (row : Nat) : Nat :=
  if field.srcNullable then input.result row &&& (input.srcNull row ^^^ 1) else input.result row

/-- The null aggregation of one lane (lines 303-309 and 479-485). -/
def nullAggregate (null result : Nat) : Nat :=
  null &&& (result ^^^ 1)

/-- `CreateTruncOrBitCast` of a byte to `i1`: its lowest bit. -/
def truncI1 (byte : Nat) : Bool :=
  byte % 2 == 1

/-- The vector header (lines 209-249): the null lanes and the value lanes the
vector loop starts from. -/
def vectorHeader (field : AggField) (input : AggInput) : (Nat → Nat) × (Nat → Int) :=
  match field.aggregationType with
  | AggregationType.MIN => (fun _ => input.destNullValue, fun _ => input.destValue)
  | AggregationType.MAX => (fun _ => input.destNullValue, fun _ => input.destValue)
  | AggregationType.SUM =>
    (fun j => if j = 0 then input.destNullValue else 1, fun j => if j = 0 then input.destValue else 0)
  | AggregationType.CNT =>
    (fun j => if j = 0 then input.destNullValue else 1, fun j => if j = 0 then input.destValue else 0)

/-- The values a loop of the emitted code leaves: the position behind the last
row it handled, the null byte lanes, the value lanes, and the rows it loaded,
in order. -/
structure LoopState where
  resultNext : Nat
  nullAgg : Nat → Nat
  agg : Nat → Int
  rows : List Nat

/-- The vector body (lines 255-334), a loop with its test at the end.
`vectorResultPhi` is the row the result pointer stands at; the source and the
null pointer move along with it.  One unit of fuel is one pass. -/
def vectorBody (field : AggField) (input : AggInput) (vectorResultEnd : Nat) :
    Nat → Nat → (Nat → Nat) → (Nat → Int) → List Nat → Option LoopState
  | 0, _, _, _, _ => none
  | fuel + 1, vectorResultPhi, vectorNull, vectorDest, rows =>
    let vectorResult := fun j => maskedResult field input (vectorResultPhi + j)
    let vectorNullAgg := fun j => nullAggregate (vectorNull j) (vectorResult j)
    let vectorAgg := fun j =>
      buildAggregation field.aggregationType (input.src (vectorResultPhi + j)) (vectorDest j)
        (truncI1 (vectorResult j))
    let vectorResultNext := vectorResultPhi + field.vectorSize
    let rows := rows ++ List.range' vectorResultPhi field.vectorSize
    if vectorResultNext != vectorResultEnd then
      vectorBody field input vectorResultEnd fuel vectorResultNext vectorNullAgg vectorAgg rows
    else some ⟨vectorResultNext, vectorNullAgg, vectorAgg, rows⟩

/-- The shuffle mask `reduceIdx` of a merge round (lines 343-348): the lanes
`i/2 .. i-1`, then an undefined index for each `j` from `i/2` to `vectorSize`. -/
def reduceIdx (vectorSize i : Nat) : List (Option Nat) :=
  (List.range' (i / 2) (i - i / 2)).map some ++
    (List.range' (i / 2) (vectorSize - i / 2)).map (fun _ => none)

/-- `CreateShuffleVector(v, undef, mask)`: lane `k` is lane `mask[k]` of `v`,
and an undefined value where the mask has none. -/
def shuffleVector {α : Type} (v : Nat → α) (undef : Nat → α) (mask : List (Option Nat)) :
    Nat → α :=
  fun k =>
    match mask.getD k none with
    | some j => v j
    | none => undef k

/-- The combination of the lanes with the shuffled lanes in a merge round
(lines 359-387). -/
def mergeAggregation (aggregationType : AggregationType) (vectorAgg reduce : Int) : Int :=
  match aggregationType with
  | AggregationType.MIN => if vectorAgg < reduce then vectorAgg else reduce
  | AggregationType.MAX => if vectorAgg > reduce then vectorAgg else reduce
  | AggregationType.SUM => wrap64 (vectorAgg + reduce)
  | AggregationType.CNT => wrap64 (vectorAgg + reduce)

/-- The vector merge (lines 336-389): `for (i = vectorSize; i > 1; i /= 2)`.
The loop runs while the code is emitted and ends within `vectorSize` rounds,
which is the fuel `vectorEnd` gives it.  `undefNull` and `undefAgg` give the
undefined lanes of each round. -/
def vectorMerge (field : AggField) (undefNull : Nat → Nat → Nat) (undefAgg : Nat → Nat → Int) :
    Nat → Nat → (Nat → Nat) → (Nat → Int) → (Nat → Nat) × (Nat → Int)
  | 0, _, vectorNullAgg, vectorAgg => (vectorNullAgg, vectorAgg)
  | fuel + 1, i, vectorNullAgg, vectorAgg =>
    if i > 1 then
      let mask := reduceIdx field.vectorSize i
      let nullReduce := shuffleVector vectorNullAgg (undefNull i) mask
      let vectorNullAgg1 := fun k => vectorNullAgg k &&& nullReduce k
      let reduce := shuffleVector vectorAgg (undefAgg i) mask
      let vectorAgg1 := fun k => mergeAggregation field.aggregationType (vectorAgg k) (reduce k)
      vectorMerge field undefNull undefAgg fuel (i / 2) vectorNullAgg1 vectorAgg1
    else (vectorNullAgg, vectorAgg)

/-- The scalar body (lines 433-508), a loop with its test at the end.  One unit
of fuel is one pass. -/
def scalarBody (field : AggField) (input : AggInput) (resultEnd : Nat) :
    Nat → Nat → Nat → Int → List Nat → Option (Nat × Int × List Nat)
  | 0, _, _, _, _ => none
  | fuel + 1, scalarResultPhi, scalarNull, scalarDest, rows =>
    let scalarResult := maskedResult field input scalarResultPhi
    let scalarNullAgg := nullAggregate scalarNull scalarResult
    let scalarAgg :=
      buildAggregation field.aggregationType (input.src scalarResultPhi) scalarDest
        (truncI1 scalarResult)
    let scalarResultNext := scalarResultPhi + 1
    let rows := rows ++ [scalarResultPhi]
    if scalarResultNext != resultEnd then
      scalarBody field input resultEnd fuel scalarResultNext scalarNullAgg scalarAgg rows
    else some (scalarNullAgg, scalarAgg, rows)

/-- `vectorCount` (lines 205-206): `(endIdx - startIdx) & -vectorSize` in 64
bits. -/
def vectorCount (field : AggField) (input : AggInput) : Nat :=
  ((input.endIdx + 18446744073709551616 - input.startIdx) % 18446744073709551616) &&&
    ((18446744073709551616 - field.vectorSize % 18446744073709551616) % 18446744073709551616)

/-- What the emitted code for one field leaves: the null byte stored for the
destination (none when the field is not nullable: nothing is stored), the value
stored, and the rows the vector loop and the scalar loop loaded. -/
structure AggOutput where
  nullResult : Option Nat
  aggResult : Int
  vectorRows : List Nat
  scalarRows : List Nat

/-- The values that reach the vector end block (lines 396-431): from the vector
header, body and merge when `vectorCount` is not zero, else from the block
before.  They are the position of the result pointer, the null byte, the
value, and the rows the vector loop loaded. -/
def vectorEnd (field : AggField) (undefNull : Nat → Nat → Nat) (undefAgg : Nat → Nat → Int)
    (fuel : Nat) (input : AggInput) : Option (Nat × Nat × Int × List Nat) :=
  let vectorCount := vectorCount field input
  if vectorCount != 0 then
    let header := vectorHeader field input
    let vectorResultEnd := input.startIdx + vectorCount
    match vectorBody field input vectorResultEnd fuel input.startIdx header.1 header.2 [] with
    | none => none
    | some s =>
      let merged :=
        vectorMerge field undefNull undefAgg field.vectorSize field.vectorSize s.nullAgg s.agg
      some (s.resultNext, merged.1 0, merged.2 0, s.rows)
  else some (input.startIdx, input.destNullValue, input.destValue, [])

/-- The code `build` emits for one aggregated field (lines 203-526): the branch
on `vectorCount`, the vector blocks, the branch of the vector end block, the
scalar body, and the stores of the scalar end block. -/
def aggregateField (field : AggField) (undefNull : Nat → Nat → Nat)
    (undefAgg : Nat → Nat → Int) (fuel : Nat) (input : AggInput) : Option AggOutput :=
  match vectorEnd field undefNull undefAgg fuel input with
  | none => none
  | some (vectorResultData, vectorNullResult, vectorAggResult, vectorRows) =>
    if vectorResultData != input.endIdx then
      match scalarBody field input input.endIdx fuel vectorResultData vectorNullResult
          vectorAggResult [] with
      | none => none
      | some (scalarNullAgg, scalarAgg, scalarRows) =>
        some ⟨if field.destNullable then some scalarNullAgg else none, scalarAgg, vectorRows,
          scalarRows⟩
    else
      some ⟨if field.destNullable then some vectorNullResult else none, vectorAggResult,
        vectorRows, []⟩

/-! ## The scalar reading of the emitted aggregation code -/

/-- The combination of all lanes `0 .. m`, in order. -/
def reduceLanes {α : Type} (op : α → α → α) (lanes : Nat → α) : Nat → α
  | 0 => lanes 0
  | m + 1 => op (reduceLanes op lanes m) (lanes (m + 1))

/-- The lanes of the vector loop after `q` passes from row `p`, when a pass
takes lane `j` from `a` to `f a (p + j)`. -/
def vecIter {α : Type} (f : α → Nat → α) (vectorSize : Nat) : Nat → Nat → (Nat → α) → (Nat → α)
  | 0, _, lanes => lanes
  | q + 1, p, lanes => vecIter f vectorSize q (p + vectorSize) (fun j => f (lanes j) (p + j))

/-- The operation an aggregation combines values with. -/
def opOf (aggregationType : AggregationType) (a b : Int) : Int :=
  match aggregationType with
  | AggregationType.MIN => min a b
  | AggregationType.MAX => max a b
  | AggregationType.SUM => wrap64 (a + b)
  | AggregationType.CNT => wrap64 (a + b)

/-- Whether a row is selected: the `i1` the loops hand to `buildAggregation`. -/
def rowSelected (field : AggField) (input : AggInput) (row : Nat) : Bool :=
  truncI1 (maskedResult field input row)

/-- The scalar step of the value: `buildAggregation` on the row. -/
def aggStep (field : AggField) (input : AggInput) (dest : Int) (row : Nat) : Int :=
  buildAggregation field.aggregationType (input.src row) dest (rowSelected field input row)

/-- The scalar step of the null byte. -/
def nullStep (field : AggField) (input : AggInput) (null : Nat) (row : Nat) : Nat :=
  nullAggregate null (maskedResult field input row)

/-- What a row contributes to the value: its source value when selected, for
`CNT` the selection bit. -/
def contribution (field : AggField) (input : AggInput) (row : Nat) : Option Int :=
  match field.aggregationType with
  | AggregationType.CNT => some (if rowSelected field input row then 1 else 0)
  | _ => if rowSelected field input row then some (input.src row) else none

/-- The source values of the rows of a list whose selection bit is set, in
order. -/
def selectedSrc (field : AggField) (input : AggInput) (rows : List Nat) : List Int :=
  (rows.filter (rowSelected field input)).map input.src

/-- Combining a value with what a row contributes, if anything. -/
def applyContribution {α : Type} (op : α → α → α) (a : α) (contribution : Option α) : α :=
  match contribution with
  | some v => op a v
  | none => a

/-! ## Inputs used in the closed statements -/

/-- Every header takes eight bytes. -/
def spaceOverhead8 : RecType → Nat :=
  fun _ => 8

/-- A snapshot of version 10 that sees every version up to 10. -/
def snapshot10 : SnapshotDescriptor :=
  ⟨10, fun v => decide (v ≤ 10)⟩

/-- A snapshot of version 11 whose transaction began before version 10 was
committed: it sees the versions below 10 and its own. -/
def snapshot11 : SnapshotDescriptor :=
  ⟨11, fun v => decide (v < 10) || v == 11⟩

/-- A snapshot of version 12 that sees every version up to 12. -/
def snapshot12 : SnapshotDescriptor :=
  ⟨12, fun v => decide (v ≤ 12)⟩

/-- The table right after construction. -/
def emptyTable : Table :=
  ⟨[], [], [], [], 0⟩

/-- Out-parameters before a call of `get`. -/
def noOut : GetOut :=
  ⟨0, none, false⟩

/-- A sealed, valid insert entry for key 2, written at version 3. -/
def entryKey2 : LogEntry :=
  ⟨true, 9, ⟨RecType.LOG_INSERT, 2, false, [⟨3, some [7]⟩]⟩⟩

/-- A sealed, valid insert entry for key 1, written at version 10 with payload
`[12]`. -/
def entryKey1 : LogEntry :=
  ⟨true, 9, ⟨RecType.LOG_INSERT, 1, false, [⟨10, some [12]⟩]⟩⟩

/-- The chain of key 7 after `insert` at version 5 and `remove` at version 8. -/
def deletedChain : List VersionNode :=
  [⟨8, none⟩, ⟨5, some [1]⟩]

/-- Key 7, inserted and removed, still an insert-log entry. -/
def entryKey7Deleted : LogEntry :=
  ⟨true, 9, ⟨RecType.LOG_INSERT, 7, false, deletedChain⟩⟩

/-- Key 7, inserted and removed, as a main-tier record. -/
def mainKey7Deleted : DMRecord :=
  ⟨RecType.MULTI_VERSION_RECORD, 7, false, deletedChain⟩

/-- Key 7 re-inserted at version 10 with payload `[3]`. -/
def entryKey7Again : LogEntry :=
  ⟨true, 9, ⟨RecType.LOG_INSERT, 7, false, [⟨10, some [3]⟩]⟩⟩

/-- The entry `insert` appends for a key, a payload and a version, as it stands
with the given sealed and reverted flags. -/
def appendedEntry (spaceOverhead : RecType → Nat) (isSealed reverted : Bool) (key : Key)
    (data : Payload) (version : Version) : LogEntry :=
  ⟨isSealed, data.length + spaceOverhead RecType.LOG_INSERT,
    ⟨RecType.LOG_INSERT, key, reverted, [⟨version, some data⟩]⟩⟩

/-- A table whose insert log holds one sealed entry, for key 2. -/
def tableKey2 : Table :=
  { emptyTable with mInsertLog := [entryKey2] }

/-- A table whose insert log holds sealed entries for key 2 and then key 1. -/
def tableKey2Key1 : Table :=
  { emptyTable with mInsertLog := [entryKey2, entryKey1] }

/-- The table after `insert(1, [12])` at version 10 went through: one sealed
entry for key 1 in the insert log. -/
def tableKey1 : Table :=
  { emptyTable with mInsertLog := [entryKey1] }

/-- A snapshot of version 8 that sees every version up to 8. -/
def snapshot8 : SnapshotDescriptor :=
  ⟨8, fun v => decide (v ≤ 8)⟩

/-- Key 7 inserted at version 5 with payload `[1]`: one sealed insert-log
entry. -/
def tableKey7Inserted : Table :=
  { emptyTable with mInsertLog := [⟨true, 9, ⟨RecType.LOG_INSERT, 7, false, [⟨5, some [1]⟩]⟩⟩] }

/-- Key 7 inserted and removed, its record still in the insert log: the table
`remove(7)` at version 8 makes of `tableKey7Inserted`. -/
def tableKey7DeletedLog : Table :=
  { emptyTable with mInsertLog := [entryKey7Deleted],
                    mUpdateLog := [⟨false, 8, ⟨RecType.LOG_DELETE, 7, false, deletedChain⟩⟩] }

/-- Key 7 inserted and removed, its record in the main tier; the insert log
holds a sealed entry for key 2. -/
def tableKey7DeletedMain : Table :=
  { emptyTable with mHashTable := [(7, mainKey7Deleted)], mInsertLog := [entryKey2] }

/-- Key 7 inserted, removed and inserted again: the tombstone chain in the
main tier, the new entry in the insert log. -/
def tableKey7Reinserted : Table :=
  { emptyTable with mHashTable := [(7, mainKey7Deleted)], mInsertLog := [entryKey7Again] }

/-- Key 7 live in the main tier, while the insert log holds an older entry
for it. -/
def tableKey7Main : Table :=
  { emptyTable with mHashTable := [(7, entryKey7Again.record)], mInsertLog := [entryKey7Deleted] }

/-- A sealed, reverted insert entry for key 1. -/
def entryKey1Reverted : LogEntry :=
  ⟨true, 9, ⟨RecType.LOG_INSERT, 1, true, [⟨9, some [5]⟩]⟩⟩

/-- A table whose insert log holds one sealed, reverted entry for key 1. -/
def tableKey1Reverted : Table :=
  { emptyTable with mInsertLog := [entryKey1Reverted] }

/-- A table whose insert log holds a reverted entry for key 1 and then the
valid one. -/
def tableKey1RevertedKey1 : Table :=
  { emptyTable with mInsertLog := [entryKey1Reverted, entryKey1] }

/-- An insert entry for key 1 that is reserved and written but not sealed. -/
def entryKey1Unsealed : LogEntry :=
  ⟨false, 9, ⟨RecType.LOG_INSERT, 1, false, [⟨10, some [12]⟩]⟩⟩

/-- An unsealed entry with another type, key, version and no payload. -/
def entryOtherUnsealed : LogEntry :=
  ⟨false, 9, ⟨RecType.LOG_DELETE, 4, false, [⟨2, none⟩]⟩⟩

/-- A sealed entry for key 2 and an unsealed one for key 1. -/
def tableKey1Unsealed : Table :=
  { emptyTable with mInsertLog := [entryKey2, entryKey1Unsealed] }

/-- The same table with other contents in the unsealed entry. -/
def tableOtherUnsealed : Table :=
  { emptyTable with mInsertLog := [entryKey2, entryOtherUnsealed] }

/-- A table with the main pages 1, 2 and 3, whose allocator hands out page 100
next. -/
def tableThreePages : Table :=
  { emptyTable with mPages := [some 1, some 2, some 3], mPageManager := 100 }

/-- A table with the main page 1, whose allocator hands out page 100 next. -/
def tableOnePage : Table :=
  { emptyTable with mPages := [some 1], mPageManager := 100 }

/-- A `Page::gc` that is done with every page at once, reports page 2 as merged
with its predecessor (null) and returns the fill page for every other page. -/
def gcMergeSecond : PageGc Unit :=
  fun mem page _ insertMap fillPage =>
    ⟨if page = PageArg.page (some 2) then none else fillPage, true, insertMap, mem⟩

/-- A `Page::gc` whose first call fills the fill page before the page is
exhausted (`done = false`, the full page returned) and whose later calls
finish; its memory counts the calls. -/
def gcFullOnce : PageGc Nat :=
  fun calls _ _ insertMap fillPage =>
    ⟨fillPage, decide (calls ≠ 0), insertMap, calls + 1⟩

/-- A `Page::gc` that packs the inserts of one key per call and is done at
once. -/
def gcPackOne : PageGc Unit :=
  fun mem _ _ insertMap _ => ⟨none, true, insertMap.tail, mem⟩

/-- A `Page::gc` that is done at once, reports page 1 as merged into its
predecessor and rewrites every other page into the fill page. -/
def gcMergeFirst : PageGc Unit :=
  fun mem page _ insertMap fillPage =>
    ⟨if page = PageArg.page (some 1) then none else fillPage, true, insertMap, mem⟩

/-- Pages 1 and 2, empty logs; the allocator hands out page 100 next. -/
def tableTwoPages : Table :=
  { emptyTable with mPages := [some 1, some 2], mPageManager := 100 }

/-- The locals of `runGC` behind the loop over the pages: one rewritten page,
inserts of the keys 1 and 2 pending, no `gc` call recorded yet. -/
def localsTwoPending : GcLocals (Unit × List PageArg) :=
  ⟨((), []), 101, [(1, [0]), (2, [1])], [some 100], [], some 100⟩

/-- A heap of three page lists; the table's `mPages` points at address 1. -/
def heapThreeLists : List PageList :=
  [[some 7], [some 1, some 2], []]

/-- The sample field: a nullable source, a nullable destination, four lanes. -/
def sampleField (aggregationType : AggregationType) : AggField :=
  ⟨aggregationType, true, true, 4⟩

/-- The sample input: rows 3 to 13; the result byte is 0 on every third row,
row 7 is null, the previous value is 100 and it is null. -/
def sampleInput : AggInput :=
  ⟨3, 14, fun r => if r % 3 = 0 then 0 else 1, fun r => (r : Int) * 7 % 11 - 5,
    fun r => if r = 7 then 1 else 0, 100, 1⟩

/-! ## Claim-side definitions -/

/-- Claim C4 in its own words: an insert-log entry decides `get(key, snapshot)`
when it is sealed, valid, has the key, and its `data(snapshot)` does not report
`isNewest` and `wasDeleted` together. -/
def decidesGet (key : Key) (snapshot : SnapshotDescriptor) (e : LogEntry) : Bool :=
  e.sealed && e.record.isValidDataRecord && e.record.key == key &&
    !((e.record.data snapshot).isNewest && (e.record.data snapshot).wasDeleted)

/-- Claim C16 in its own words: two insert logs differ only in the contents of
entries that are not sealed. -/
def sameUpToUnsealed : Log → Log → Bool
  | [], [] => true
  | a :: as, b :: bs => (decide (a = b) || (!a.sealed && !b.sealed)) && sameUpToUnsealed as bs
  | _, _ => false

/-- Claims C25 and C26 in their own words: a row takes part when its result
byte is 1 and its source field is not null. -/
def takesPart (field : AggField) (input : AggInput) (row : Nat) : Bool :=
  input.result row == 1 && !(field.srcNullable && input.srcNull row == 1)

/-- Claim C25 in its own words: the selected values, that is the source values
of the rows of a list that take part, in order. -/
def selectedValues (field : AggField) (input : AggInput) (rows : List Nat) : List Int :=
  (rows.filter (takesPart field input)).map input.src

/-! ## Lemmas on the loops -/

/-- The re-scan loop of `insert` never leaves a position whose entry is not
sealed, or is another entry than the appended one and no valid entry for the
key: the iterator is not advanced. -/
theorem insertLoop_stays (key : Key) (snapshot : SnapshotDescriptor) (entry iterEnd : Nat)
    (succeeded : Option Bool) (t : Table) (iter : Nat) (hne : iter ≠ iterEnd)
    (hstay : (t.mInsertLog.entryAt iter).sealed = false ∨
      (iter ≠ entry ∧ ((t.mInsertLog.entryAt iter).record.isValidDataRecord &&
        (t.mInsertLog.entryAt iter).record.key == key) = false)) (fuel : Nat) :
    Table.insertLoop key snapshot entry iterEnd succeeded fuel t iter = none := by
  induction fuel with
  | zero => rfl
  | succ n ih =>
    rcases hstay with h | ⟨h1, h2⟩
    · simp [Table.insertLoop, hne, h, ih]
    · by_cases hs : (t.mInsertLog.entryAt iter).sealed = true
      · simp [Table.insertLoop, hne, hs, h1, ih]
        intro ha hb
        simp [ha, hb] at h2
      · simp [Table.insertLoop, hne, hs, ih]

/-- The insert-log scan of `genericUpdate` never leaves a position whose entry
is no valid entry for the key: the iterator is not advanced. -/
theorem genericUpdateScan_stays (log : Log) (key : Key) (iterEnd iter : Nat)
    (hne : iter ≠ iterEnd)
    (hstay : ((log.entryAt iter).record.isValidDataRecord &&
      (log.entryAt iter).record.key == key) = false) (fuel : Nat) :
    Table.genericUpdateScan log key iterEnd fuel iter = none := by
  induction fuel with
  | zero => rfl
  | succ n ih =>
    simp only [Table.genericUpdateScan, hstay]
    simp [hne, ih]

/-- The first loop of `runGC` never leaves a position whose entry is sealed:
the iterator is not advanced. -/
theorem buildInsertMap_stays (log : Log) (end_ insIter : Nat) (hne : insIter ≠ end_)
    (hsealed : (log.entryAt insIter).sealed = true) (fuel : Nat) (insertMap : InsertMap) :
    Table.buildInsertMap log end_ fuel insIter insertMap = none := by
  induction fuel generalizing insertMap with
  | zero => rfl
  | succ n ih =>
    simp only [Table.buildInsertMap]
    simp [hne, hsealed, ih]

/-- The scan of `get` returns what the first deciding entry of the log yields,
and "not found" when there is none. -/
theorem getScan_eq_find (key : Key) (snapshot : SnapshotDescriptor) (log : List LogEntry)
    (out : GetOut) :
    match log.find? (decidesGet key snapshot) with
    | some e => Table.getScan key snapshot log out =
        (!(e.record.data snapshot).wasDeleted, (e.record.data snapshot).out)
    | none => (Table.getScan key snapshot log out).1 = false := by
  induction log generalizing out with
  | nil => simp [Table.getScan]
  | cons e rest ih =>
    by_cases hs : e.sealed = true
    · by_cases hk : (e.record.isValidDataRecord && e.record.key == key) = true
      · by_cases hd : ((e.record.data snapshot).isNewest && (e.record.data snapshot).wasDeleted) = true
        · have hp : decidesGet key snapshot e = false := by simp [decidesGet, hd]
          simp only [List.find?, hp, Table.getScan, hs, hk, hd]
          simpa using ih (e.record.data snapshot).out
        · have hp : decidesGet key snapshot e = true := by
            simp only [Bool.not_eq_true] at hd
            simp only [Bool.and_eq_true] at hk
            simp [decidesGet, hs, hk.1, hk.2, hd]
          simp only [List.find?, hp, Table.getScan, hs, hk]
          simp [hd]
      · have hp : decidesGet key snapshot e = false := by
          simp only [Bool.not_eq_true] at hk
          simp only [decidesGet, hs, Bool.true_and, hk, Bool.false_and]
        simp only [List.find?, hp, Table.getScan, hs, hk]
        simpa using ih out
    · have hp : decidesGet key snapshot e = false := by
        simp only [Bool.not_eq_true] at hs
        simp [decidesGet, hs]
      simp only [List.find?, hp, Table.getScan, hs]
      simpa using ih out

/-- Writing the entry that was just appended. -/
theorem append_set_last {α : Type} (l : List α) (x y : α) :
    (l ++ [x]).set l.length y = l ++ [y] := by
  induction l with
  | nil => rfl
  | cons a l ih => simp [List.set, ih]

/-- The scan of `get` sees the sealed entries only. -/
theorem getScan_filter_sealed (key : Key) (snapshot : SnapshotDescriptor) (log : List LogEntry)
    (out : GetOut) :
    Table.getScan key snapshot log out =
      Table.getScan key snapshot (log.filter (fun e => e.sealed)) out := by
  induction log generalizing out with
  | nil => rfl
  | cons e rest ih =>
    by_cases hs : e.sealed = true
    · simp only [List.filter, hs, Table.getScan]
      simp only [ih]
    · simp only [Bool.not_eq_true] at hs
      simp only [List.filter, hs, Table.getScan]
      simpa using ih out

/-- The scan of `get` does not tell apart two logs that differ in unsealed
entries only. -/
theorem getScan_sameUpToUnsealed (key : Key) (snapshot : SnapshotDescriptor) (log1 log2 : Log)
    (out : GetOut) (h : sameUpToUnsealed log1 log2 = true) :
    Table.getScan key snapshot log1 out = Table.getScan key snapshot log2 out := by
  induction log1 generalizing log2 out with
  | nil =>
    cases log2 with
    | nil => rfl
    | cons b bs => simp [sameUpToUnsealed] at h
  | cons a as ih =>
    cases log2 with
    | nil => simp [sameUpToUnsealed] at h
    | cons b bs =>
      simp only [sameUpToUnsealed, Bool.and_eq_true, Bool.or_eq_true, decide_eq_true_eq,
        Bool.not_eq_true'] at h
      obtain ⟨hab, hrest⟩ := h
      rcases hab with hab | ⟨ha, hb⟩
      · subst hab
        simp only [Table.getScan, ih _ _ hrest]
      · simp only [Table.getScan, ha, hb]
        simpa using ih bs out hrest

/-! ## Lemmas on the packing loop and on the shared page lists -/

/-- After `n` packing rounds `nPages` has grown by the `n` pages the allocator
handed out, in order, and `gc` was invoked `n` more times, each time on the
dummy page. -/
theorem packRound_iterate {σ : Type} (gc : PageGc σ) (minVersion : Version) (n : Nat)
    (l : GcLocals (σ × List PageArg)) :
    (Nat.iterate (Table.packRound (PageGc.traced gc) minVersion) n l).nPages =
        l.nPages ++ (List.range' l.pageManager n).map some ∧
      (Nat.iterate (Table.packRound (PageGc.traced gc) minVersion) n l).mem.2 =
        l.mem.2 ++ List.replicate n PageArg.dummyPage ∧
      (Nat.iterate (Table.packRound (PageGc.traced gc) minVersion) n l).pageManager =
        l.pageManager + n ∧
      (Nat.iterate (Table.packRound (PageGc.traced gc) minVersion) n l).newPages = l.newPages := by
  induction n generalizing l with
  | zero => simp
  | succ n ih =>
    obtain ⟨h1, h2, h3, h4⟩ := ih (Table.packRound (PageGc.traced gc) minVersion l)
    simp only [Function.iterate_succ, Function.comp_apply]
    refine ⟨?_, ?_, ?_, ?_⟩
    · rw [h1]
      simp [Table.packRound, PageManager.alloc, List.range'_succ]
    · rw [h2]
      simp [Table.packRound, PageManager.alloc, PageGc.traced, List.replicate_succ]
    · rw [h3]
      simp [Table.packRound, PageManager.alloc]
      omega
    · rw [h4]
      simp [Table.packRound, PageManager.alloc]

/-- When the packing loop is left, it has made some number `n` of rounds, the
insert map was non-empty before each of them and is empty now. -/
theorem gcInserts_eq_iterate {σ : Type} (gc : PageGc σ) (minVersion : Version) (fuel : Nat)
    (l l1 : GcLocals σ) (h : Table.gcInserts gc minVersion fuel l = some l1) :
    ∃ n, n < fuel ∧ l1 = Nat.iterate (Table.packRound gc minVersion) n l ∧
      l1.insertMap = [] ∧
      ∀ m, m < n → (Nat.iterate (Table.packRound gc minVersion) m l).insertMap ≠ [] := by
  induction fuel generalizing l with
  | zero => simp [Table.gcInserts] at h
  | succ f ih =>
    by_cases he : l.insertMap = []
    · simp [Table.gcInserts, he] at h
      exact ⟨0, by omega, by simp [h], by rw [← h]; exact he, by intro m hm; omega⟩
    · have hne : (!l.insertMap.isEmpty) = true := by
        cases hl : l.insertMap with
        | nil => exact absurd hl he
        | cons a as => rfl
      simp only [Table.gcInserts, hne, if_true] at h
      obtain ⟨n, hn, hl1, hemp, hall⟩ := ih (Table.packRound gc minVersion l) h
      refine ⟨n + 1, by omega, ?_, hemp, ?_⟩
      · rw [hl1]; rfl
      · intro m hm
        cases m with
        | zero => simpa using he
        | succ m => exact hall m (by omega)

/-- The packing loop is left after `n` rounds as soon as it has more than `n`
units of fuel, when the insert map is empty after `n` rounds and not before. -/
theorem gcInserts_of_iterate {σ : Type} (gc : PageGc σ) (minVersion : Version) (n : Nat)
    (fuel : Nat) (l : GcLocals σ) (hfuel : n < fuel)
    (hemp : (Nat.iterate (Table.packRound gc minVersion) n l).insertMap = [])
    (hall : ∀ m, m < n → (Nat.iterate (Table.packRound gc minVersion) m l).insertMap ≠ []) :
    Table.gcInserts gc minVersion fuel l =
      some (Nat.iterate (Table.packRound gc minVersion) n l) := by
  induction n generalizing l fuel with
  | zero =>
    obtain ⟨f, rfl⟩ : ∃ f, fuel = f + 1 := ⟨fuel - 1, by omega⟩
    have he : l.insertMap = [] := hemp
    simp [Table.gcInserts, he]
  | succ n ih =>
    obtain ⟨f, rfl⟩ : ∃ f, fuel = f + 1 := ⟨fuel - 1, by omega⟩
    have he : l.insertMap ≠ [] := hall 0 (by omega)
    have hne : (!l.insertMap.isEmpty) = true := by
      cases hl : l.insertMap with
      | nil => exact absurd hl he
      | cons a as => rfl
    simp only [Table.gcInserts, hne, if_true]
    exact ih f (Table.packRound gc minVersion l) (by omega) hemp
      (fun m hm => hall (m + 1) (by omega))

/-- Writing an object back to its address leaves the heap as it is. -/
theorem heap_set_getD (heap : List PageList) (p : Nat) :
    heap.set p (heap.getD p []) = heap := by
  induction heap generalizing p with
  | nil => rfl
  | cons a rest ih =>
    cases p with
    | zero => rfl
    | succ p => simp only [List.set_cons_succ, List.getD_cons_succ, ih]

/-- Reading the address just written gives the object written. -/
theorem heap_getD_set (heap : List PageList) (p : Nat) (l : PageList) (hp : p < heap.length) :
    (heap.set p l).getD p [] = l := by
  simp [List.getD, hp]

/-- The retry loop writes to the object at `nPagesPtr` only and leaves the
pointer `mPages` as it is. -/
theorem gcRetryShared_frame {σ : Type} (gc : PageGc σ) (minVersion : Version) (page : PageArg)
    (nPagesPtr i : Nat) (fuel : Nat) (s : GcShared σ) (done : Bool) :
    (∃ l, (Table.gcRetryShared gc minVersion page nPagesPtr i fuel s done).1.heap =
        s.heap.set nPagesPtr l) ∧
      (Table.gcRetryShared gc minVersion page nPagesPtr i fuel s done).1.mPages = s.mPages := by
  induction fuel generalizing s done with
  | zero => exact ⟨⟨_, (heap_set_getD s.heap nPagesPtr).symm⟩, rfl⟩
  | succ fuel ih =>
    cases done with
    | true => exact ⟨⟨_, (heap_set_getD s.heap nPagesPtr).symm⟩, rfl⟩
    | false =>
      simp only [Table.gcRetryShared, Bool.not_false, if_true, PageManager.alloc]
      obtain ⟨⟨l, hl⟩, hm⟩ := ih ⟨s.heap.set nPagesPtr ((s.nPages nPagesPtr).set i
        (gc s.mem page minVersion s.insertMap (some s.pageManager)).newPtr), s.mPages,
        (gc s.mem page minVersion s.insertMap (some s.pageManager)).mem, s.pageManager + 1,
        (gc s.mem page minVersion s.insertMap (some s.pageManager)).insertMap,
        if ((s.nPages nPagesPtr).getD i none).isSome then
          s.newPages ++ [(s.nPages nPagesPtr).getD i none] else s.newPages,
        some s.pageManager⟩ (gc s.mem page minVersion s.insertMap (some s.pageManager)).done
      refine ⟨⟨l, ?_⟩, hm⟩
      rw [hl, List.set_set]

/-- The retry loop on the shared state computes what the by-value retry loop
computes on the locals the state stands for. -/
theorem gcRetryShared_refines {σ : Type} (gc : PageGc σ) (minVersion : Version) (page : PageArg)
    (nPagesPtr i : Nat) (fuel : Nat) (s : GcShared σ) (done : Bool)
    (hp : nPagesPtr < s.heap.length) :
    Table.gcRetry gc minVersion page i fuel (s.locals nPagesPtr) done =
      if (Table.gcRetryShared gc minVersion page nPagesPtr i fuel s done).2 then
        some ((Table.gcRetryShared gc minVersion page nPagesPtr i fuel s done).1.locals nPagesPtr)
      else none := by
  induction fuel generalizing s done with
  | zero => rfl
  | succ fuel ih =>
    cases done with
    | true => rfl
    | false =>
      simp only [Table.gcRetryShared, Table.gcRetry, Bool.not_false, if_true, PageManager.alloc]
      rw [← ih _ _ (by simpa using hp)]
      simp only [GcShared.locals, GcShared.nPages, heap_getD_set _ _ _ hp]

/-- The loop over all pages writes to the object at `nPagesPtr` only and leaves
the pointer `mPages` as it is. -/
theorem gcPagesShared_frame {σ : Type} (gc : PageGc σ) (minVersion : Version)
    (nPagesPtr : Nat) (fuel : Nat) (s : GcShared σ) (i : Nat) :
    (∃ l, (Table.gcPagesShared gc minVersion nPagesPtr fuel s i).1.heap =
        s.heap.set nPagesPtr l) ∧
      (Table.gcPagesShared gc minVersion nPagesPtr fuel s i).1.mPages = s.mPages := by
  induction fuel generalizing s i with
  | zero => exact ⟨⟨_, (heap_set_getD s.heap nPagesPtr).symm⟩, rfl⟩
  | succ fuel ih =>
    rw [Table.gcPagesShared]
    simp only []
    split
    · obtain ⟨⟨l, hl⟩, hm⟩ := gcRetryShared_frame gc minVersion
        (PageArg.page ((s.nPages nPagesPtr).getD i none)) nPagesPtr i fuel
        ⟨s.heap.set nPagesPtr ((s.nPages nPagesPtr).set i
          (gc s.mem (PageArg.page ((s.nPages nPagesPtr).getD i none)) minVersion s.insertMap
            s.fillPage).newPtr), s.mPages,
          (gc s.mem (PageArg.page ((s.nPages nPagesPtr).getD i none)) minVersion s.insertMap
            s.fillPage).mem, s.pageManager,
          (gc s.mem (PageArg.page ((s.nPages nPagesPtr).getD i none)) minVersion s.insertMap
            s.fillPage).insertMap, s.newPages, s.fillPage⟩
        (gc s.mem (PageArg.page ((s.nPages nPagesPtr).getD i none)) minVersion s.insertMap
          s.fillPage).done
      rw [List.set_set] at hl
      split
      · next s2 heq =>
        rw [heq] at hl hm
        exact ⟨⟨l, hl⟩, hm⟩
      · next s2 heq =>
        rw [heq] at hl hm
        simp only [] at hl hm
        split
        · obtain ⟨⟨l1, hl1⟩, hm1⟩ := ih
            { s2 with heap := s2.heap.set nPagesPtr ((s2.nPages nPagesPtr).eraseIdx i) } (i + 1)
          refine ⟨⟨l1, ?_⟩, hm1.trans hm⟩
          rw [hl1]
          simp only [hl, List.set_set]
        · obtain ⟨⟨l1, hl1⟩, hm1⟩ := ih s2 (i + 1)
          refine ⟨⟨l1, ?_⟩, hm1.trans hm⟩
          rw [hl1, hl, List.set_set]
    · exact ⟨⟨_, (heap_set_getD s.heap nPagesPtr).symm⟩, rfl⟩

/-- The packing loop writes to the object at `nPagesPtr` only and leaves the
pointer `mPages` as it is. -/
theorem gcInsertsShared_frame {σ : Type} (gc : PageGc σ) (minVersion : Version)
    (nPagesPtr : Nat) (fuel : Nat) (s : GcShared σ) :
    (∃ l, (Table.gcInsertsShared gc minVersion nPagesPtr fuel s).1.heap =
        s.heap.set nPagesPtr l) ∧
      (Table.gcInsertsShared gc minVersion nPagesPtr fuel s).1.mPages = s.mPages := by
  induction fuel generalizing s with
  | zero => exact ⟨⟨_, (heap_set_getD s.heap nPagesPtr).symm⟩, rfl⟩
  | succ fuel ih =>
    rw [Table.gcInsertsShared]
    split
    · simp only [PageManager.alloc]
      obtain ⟨⟨l, hl⟩, hm⟩ := ih ⟨s.heap.set nPagesPtr (s.nPages nPagesPtr ++ [some s.pageManager]),
        s.mPages, (gc s.mem PageArg.dummyPage minVersion s.insertMap (some s.pageManager)).mem,
        s.pageManager + 1,
        (gc s.mem PageArg.dummyPage minVersion s.insertMap (some s.pageManager)).insertMap,
        s.newPages, some s.pageManager⟩
      refine ⟨⟨l, ?_⟩, hm⟩
      rw [hl, List.set_set]
    · exact ⟨⟨_, (heap_set_getD s.heap nPagesPtr).symm⟩, rfl⟩

/-- The packing loop on the shared state computes what the by-value packing
loop computes on the locals the state stands for. -/
theorem gcInsertsShared_refines {σ : Type} (gc : PageGc σ) (minVersion : Version)
    (nPagesPtr : Nat) (fuel : Nat) (s : GcShared σ) (hp : nPagesPtr < s.heap.length) :
    Table.gcInserts gc minVersion fuel (s.locals nPagesPtr) =
      if (Table.gcInsertsShared gc minVersion nPagesPtr fuel s).2 then
        some ((Table.gcInsertsShared gc minVersion nPagesPtr fuel s).1.locals nPagesPtr)
      else none := by
  induction fuel generalizing s with
  | zero => rfl
  | succ fuel ih =>
    rw [Table.gcInsertsShared, Table.gcInserts]
    by_cases he : s.insertMap.isEmpty = true
    · simp [GcShared.locals, he]
    · have he1 : (s.locals nPagesPtr).insertMap.isEmpty = false := by
        simpa [GcShared.locals] using he
      have he2 : s.insertMap.isEmpty = false := by simpa using he
      simp only [he1, he2, Bool.not_false, if_true, PageManager.alloc]
      rw [← ih _ (by simpa using hp)]
      simp only [GcShared.locals, GcShared.nPages, heap_getD_set _ _ _ hp]

/-- The loop over all pages on the shared state computes what the by-value loop
computes on the locals the state stands for. -/
theorem gcPagesShared_refines {σ : Type} (gc : PageGc σ) (minVersion : Version)
    (nPagesPtr : Nat) (fuel : Nat) (s : GcShared σ) (i : Nat) (hp : nPagesPtr < s.heap.length) :
    Table.gcPages gc minVersion fuel (s.locals nPagesPtr) i =
      if (Table.gcPagesShared gc minVersion nPagesPtr fuel s i).2 then
        some ((Table.gcPagesShared gc minVersion nPagesPtr fuel s i).1.locals nPagesPtr)
      else none := by
  induction fuel generalizing s i with
  | zero => rfl
  | succ fuel ih =>
    rw [Table.gcPagesShared, Table.gcPages]
    simp only []
    by_cases hi : i < (s.nPages nPagesPtr).length
    · have hi1 : i < (s.locals nPagesPtr).nPages.length := hi
      rw [if_pos hi, if_pos hi1]
      simp only [GcShared.locals]
      generalize gc s.mem (PageArg.page ((s.nPages nPagesPtr).getD i none)) minVersion s.insertMap
        s.fillPage = r
      generalize PageArg.page ((s.nPages nPagesPtr).getD i none) = page
      have hlen : nPagesPtr < (s.heap.set nPagesPtr ((s.nPages nPagesPtr).set i r.newPtr)).length := by
        simpa using hp
      have hret := gcRetryShared_refines gc minVersion page nPagesPtr i fuel
        ⟨s.heap.set nPagesPtr ((s.nPages nPagesPtr).set i r.newPtr), s.mPages, r.mem,
          s.pageManager, r.insertMap, s.newPages, s.fillPage⟩ r.done hlen
      obtain ⟨⟨l, hl⟩, _⟩ := gcRetryShared_frame gc minVersion page nPagesPtr i fuel
        ⟨s.heap.set nPagesPtr ((s.nPages nPagesPtr).set i r.newPtr), s.mPages, r.mem,
          s.pageManager, r.insertMap, s.newPages, s.fillPage⟩ r.done
      rcases hX : Table.gcRetryShared gc minVersion page nPagesPtr i fuel
        ⟨s.heap.set nPagesPtr ((s.nPages nPagesPtr).set i r.newPtr), s.mPages, r.mem,
          s.pageManager, r.insertMap, s.newPages, s.fillPage⟩ r.done with ⟨s2, b⟩
      rw [hX] at hret hl
      simp only [GcShared.locals, GcShared.nPages, heap_getD_set _ _ _ hp] at hret
      simp only [List.set_set] at hl
      have hp2 : nPagesPtr < s2.heap.length := by
        rw [hl]; simpa using hp
      simp only [GcShared.nPages]
      rw [hret]
      cases b with
      | false => simp
      | true =>
        simp only [if_true]
        by_cases hn : ((s2.heap.getD nPagesPtr []).getD i none).isNone = true
        · simp only [hn, if_true]
          have hlen2 : nPagesPtr <
              (s2.heap.set nPagesPtr ((s2.heap.getD nPagesPtr []).eraseIdx i)).length := by
            simpa using hp2
          have h3 := ih ⟨s2.heap.set nPagesPtr ((s2.heap.getD nPagesPtr []).eraseIdx i), s2.mPages,
            s2.mem, s2.pageManager, s2.insertMap, s2.newPages, s2.fillPage⟩ (i + 1) hlen2
          simp only [GcShared.locals, GcShared.nPages, heap_getD_set _ _ _ hp2] at h3
          exact h3
        · simp only [hn]
          have h3 := ih s2 (i + 1) hp2
          simp only [GcShared.locals, GcShared.nPages] at h3
          simpa using h3
    · have hi1 : ¬ i < (s.locals nPagesPtr).nPages.length := hi
      rw [if_neg hi, if_neg hi1]
      rfl

/-- Writing the object appended last. -/
theorem heap_append_set (heap : List PageList) (x l : PageList) :
    (heap ++ [x]).set heap.length l = heap ++ [l] := by
  induction heap with
  | nil => rfl
  | cons a rest ih => simp only [List.cons_append, List.length_cons, List.set_cons_succ, ih]

/-! ## Lemmas on the emitted aggregation code -/

/-- Wrapping the left summand first does not change the wrapped sum. -/
theorem wrap64_add_wrap64_left (a b : Int) : wrap64 (wrap64 a + b) = wrap64 (a + b) := by
  unfold wrap64
  omega

/-- Wrapping the right summand first does not change the wrapped sum. -/
theorem wrap64_add_wrap64_right (a b : Int) : wrap64 (a + wrap64 b) = wrap64 (a + b) := by
  unfold wrap64
  omega

/-- A value in the signed 64-bit range is its own wrapping. -/
theorem wrap64_of_inRange (a : Int) (h1 : -9223372036854775808 ≤ a)
    (h2 : a < 9223372036854775808) : wrap64 a = a := by
  unfold wrap64
  omega

/-- A wrapped value is in the signed 64-bit range. -/
theorem wrap64_inRange (a : Int) :
    -9223372036854775808 ≤ wrap64 a ∧ wrap64 a < 9223372036854775808 := by
  unfold wrap64
  omega

/-- The operation of an aggregation is commutative. -/
theorem opOf_comm (t : AggregationType) (a b : Int) : opOf t a b = opOf t b a := by
  cases t
  · exact min_comm a b
  · exact max_comm a b
  · simp only [opOf, add_comm]
  · simp only [opOf, add_comm]

/-- The operation of an aggregation is associative. -/
theorem opOf_assoc (t : AggregationType) (a b c : Int) :
    opOf t (opOf t a b) c = opOf t a (opOf t b c) := by
  cases t
  · exact min_assoc a b c
  · exact max_assoc a b c
  · simp only [opOf, wrap64_add_wrap64_left, wrap64_add_wrap64_right, add_assoc]
  · simp only [opOf, wrap64_add_wrap64_left, wrap64_add_wrap64_right, add_assoc]

/-- A merge round combines two lanes with the operation of the aggregation. -/
theorem mergeAggregation_eq_opOf (t : AggregationType) (a b : Int) :
    mergeAggregation t a b = opOf t a b := by
  cases t
  · simp only [mergeAggregation, opOf]
    split <;> omega
  · simp only [mergeAggregation, opOf]
    split <;> omega
  · rfl
  · rfl

/-- The scalar step combines the previous value with what the row contributes. -/
theorem aggStep_eq (field : AggField) (input : AggInput) (dest : Int) (row : Nat) :
    aggStep field input dest row =
      applyContribution (opOf field.aggregationType) dest (contribution field input row) := by
  unfold aggStep contribution buildAggregation opOf applyContribution
  cases field.aggregationType <;> cases rowSelected field input row <;>
    simp [min_def, max_def] <;> split_ifs <;> omega

/-- The combination of lanes that are combined pairwise. -/
theorem reduceLanes_op {α : Type} (op : α → α → α) (hc : ∀ a b, op a b = op b a)
    (ha : ∀ a b c, op (op a b) c = op a (op b c)) (f g : Nat → α) (m : Nat) :
    reduceLanes op (fun j => op (f j) (g j)) m = op (reduceLanes op f m) (reduceLanes op g m) := by
  induction m with
  | zero => rfl
  | succ m ih =>
    simp only [reduceLanes, ih]
    rw [ha, ha]
    congr 1
    rw [← ha, ← ha, hc (f (m + 1))]

/-- The combination of `m + k + 2` lanes is that of the first `m + 1` with that
of the `k + 1` behind them. -/
theorem reduceLanes_split {α : Type} (op : α → α → α)
    (ha : ∀ a b c, op (op a b) c = op a (op b c)) (f : Nat → α) (m k : Nat) :
    reduceLanes op f (m + k + 1) =
      op (reduceLanes op f m) (reduceLanes op (fun j => f (j + (m + 1))) k) := by
  induction k with
  | zero => simp [reduceLanes]
  | succ k ih =>
    have h1 : reduceLanes op f (m + (k + 1) + 1) =
        op (reduceLanes op f (m + k + 1)) (f (m + k + 1 + 1)) := rfl
    have h2 : reduceLanes op (fun j => f (j + (m + 1))) (k + 1) =
        op (reduceLanes op (fun j => f (j + (m + 1))) k) (f (k + 1 + (m + 1))) := rfl
    have h3 : k + 1 + (m + 1) = m + k + 1 + 1 := by omega
    rw [h1, h2, ih, ha, h3]

/-- The combination of the lanes `0 .. m` reads no other lane. -/
theorem reduceLanes_congr {α : Type} (op : α → α → α) (f g : Nat → α) (m : Nat)
    (h : ∀ j, j ≤ m → f j = g j) : reduceLanes op f m = reduceLanes op g m := by
  induction m with
  | zero => exact h 0 (le_refl 0)
  | succ m ih =>
    simp only [reduceLanes]
    rw [ih (fun j hj => h j (by omega)), h (m + 1) (le_refl _)]

/-- One merge round: combining lane `j` with lane `j + half` for `j < half`
keeps the combination of all `2 * half` lanes. -/
theorem reduceLanes_halve {α : Type} (op : α → α → α) (hc : ∀ a b, op a b = op b a)
    (ha : ∀ a b c, op (op a b) c = op a (op b c)) (f : Nat → α) (half : Nat) (hh : 1 ≤ half) :
    reduceLanes op (fun j => op (f j) (f (j + half))) (half - 1) =
      reduceLanes op f (2 * half - 1) := by
  obtain ⟨m, rfl⟩ : ∃ m, half = m + 1 := ⟨half - 1, by omega⟩
  have h1 : 2 * (m + 1) - 1 = m + m + 1 := by omega
  have h2 : m + 1 - 1 = m := by omega
  rw [h1, h2, reduceLanes_split op ha f m m, reduceLanes_op op hc ha]

/-- A step on the right operand of a combination. -/
theorem step_op {α : Type} (op : α → α → α) (ha : ∀ a b c, op (op a b) c = op a (op b c))
    (f : α → Nat → α) (x : Nat → Option α) (hf : ∀ a r, f a r = applyContribution op a (x r))
    (a b : α) (r : Nat) : f (op a b) r = op a (f b r) := by
  rw [hf, hf]
  cases x r with
  | none => rfl
  | some v => exact ha a b v

/-- A fold of steps from a combination. -/
theorem foldl_step_op {α : Type} (op : α → α → α) (hc : ∀ a b, op a b = op b a)
    (ha : ∀ a b c, op (op a b) c = op a (op b c)) (f : α → Nat → α) (x : Nat → Option α)
    (hf : ∀ a r, f a r = applyContribution op a (x r)) (a b : α) (rows : List Nat) :
    List.foldl f (op a b) rows = op (List.foldl f a rows) b := by
  induction rows generalizing a with
  | nil => rfl
  | cons r rows ih =>
    simp only [List.foldl]
    rw [hc a b, step_op op ha f x hf b a r, hc b, ih]

/-- One pass of the vector loop: stepping lane `j` with row `p + j` and
combining the lanes is stepping the combination through the rows
`p .. p + m`. -/
theorem reduceLanes_step {α : Type} (op : α → α → α) (hc : ∀ a b, op a b = op b a)
    (ha : ∀ a b c, op (op a b) c = op a (op b c)) (f : α → Nat → α) (x : Nat → Option α)
    (hf : ∀ a r, f a r = applyContribution op a (x r)) (lanes : Nat → α) (p m : Nat) :
    reduceLanes op (fun j => f (lanes j) (p + j)) m =
      List.foldl f (reduceLanes op lanes m) (List.range' p (m + 1)) := by
  induction m with
  | zero => simp [reduceLanes, List.range']
  | succ m ih =>
    have hr : List.range' p (m + 1 + 1) = List.range' p (m + 1) ++ [p + (m + 1)] := by
      rw [List.range'_concat]
      simp
    have h1 : reduceLanes op (fun j => f (lanes j) (p + j)) (m + 1) =
        op (reduceLanes op (fun j => f (lanes j) (p + j)) m) (f (lanes (m + 1)) (p + (m + 1))) :=
      rfl
    have h2 : reduceLanes op lanes (m + 1) = op (reduceLanes op lanes m) (lanes (m + 1)) := rfl
    rw [h1, h2, hr, List.foldl_append, ih, foldl_step_op op hc ha f x hf]
    simp only [List.foldl]
    rw [step_op op ha f x hf]

/-- The vector loop: after `q` passes from row `p`, the combination of the
`m + 1` lanes is the fold of the steps over the rows `p .. p + q * (m + 1) - 1`
in order. -/
theorem reduceLanes_vecIter {α : Type} (op : α → α → α) (hc : ∀ a b, op a b = op b a)
    (ha : ∀ a b c, op (op a b) c = op a (op b c)) (f : α → Nat → α) (x : Nat → Option α)
    (hf : ∀ a r, f a r = applyContribution op a (x r)) (q p m : Nat) (lanes : Nat → α) :
    reduceLanes op (vecIter f (m + 1) q p lanes) m =
      List.foldl f (reduceLanes op lanes m) (List.range' p (q * (m + 1))) := by
  induction q generalizing p lanes with
  | zero => simp [vecIter]
  | succ q ih =>
    have hr : List.range' p ((q + 1) * (m + 1)) =
        List.range' p (m + 1) ++ List.range' (p + (m + 1)) (q * (m + 1)) := by
      rw [List.range'_append_1]
      congr 1
      ring
    simp only [vecIter]
    rw [ih, hr, List.foldl_append, reduceLanes_step op hc ha f x hf]

/-- The mask of a merge round over `2 * half` lanes sends lane `j < half` to
lane `half + j`. -/
theorem reduceIdx_getD (vectorSize half j : Nat) (hj : j < half) :
    (reduceIdx vectorSize (2 * half)).getD j none = some (half + j) := by
  have h1 : 2 * half / 2 = half := by omega
  have h2 : 2 * half - half = half := by omega
  simp only [reduceIdx, h1, h2, List.getD_eq_getElem?_getD]
  rw [List.getElem?_append_left (by simpa using hj)]
  simp [List.getElem?_range', hj]

/-- The vector merge leaves in lane 0 the combination of all lanes, for the
null bytes and for the values, when the number of lanes is a power of two. -/
theorem vectorMerge_lane0 (field : AggField) (undefNull : Nat → Nat → Nat)
    (undefAgg : Nat → Nat → Int) (k fuel : Nat) (hk : k ≤ fuel) (vectorNullAgg : Nat → Nat)
    (vectorAgg : Nat → Int) :
    (vectorMerge field undefNull undefAgg fuel (2 ^ k) vectorNullAgg vectorAgg).1 0 =
        reduceLanes (fun a b => a &&& b) vectorNullAgg (2 ^ k - 1) ∧
      (vectorMerge field undefNull undefAgg fuel (2 ^ k) vectorNullAgg vectorAgg).2 0 =
        reduceLanes (opOf field.aggregationType) vectorAgg (2 ^ k - 1) := by
  induction k generalizing fuel vectorNullAgg vectorAgg with
  | zero =>
    cases fuel with
    | zero => exact ⟨rfl, rfl⟩
    | succ f => exact ⟨rfl, rfl⟩
  | succ k ih =>
    obtain ⟨f, rfl⟩ : ∃ f, fuel = f + 1 := ⟨fuel - 1, by omega⟩
    have hpos : 1 ≤ 2 ^ k := Nat.one_le_two_pow
    have hi : 2 ^ (k + 1) = 2 * 2 ^ k := by rw [pow_succ]; ring
    have hgt : 2 ^ (k + 1) > 1 := by omega
    have hhalf : 2 ^ (k + 1) / 2 = 2 ^ k := by omega
    simp only [vectorMerge, hgt, if_true, hhalf]
    obtain ⟨h1, h2⟩ := ih f (by omega)
      (fun j => vectorNullAgg j &&&
        shuffleVector vectorNullAgg (undefNull (2 ^ (k + 1))) (reduceIdx field.vectorSize (2 ^ (k + 1))) j)
      (fun j => mergeAggregation field.aggregationType (vectorAgg j)
        (shuffleVector vectorAgg (undefAgg (2 ^ (k + 1))) (reduceIdx field.vectorSize (2 ^ (k + 1))) j))
    have hlast : 2 ^ (k + 1) - 1 = 2 * 2 ^ k - 1 := by omega
    constructor
    · rw [h1, hlast, ← reduceLanes_halve (fun a b => a &&& b) Nat.land_comm Nat.land_assoc
        vectorNullAgg (2 ^ k) hpos]
      apply reduceLanes_congr
      intro j hj
      simp only [shuffleVector, hi, reduceIdx_getD field.vectorSize (2 ^ k) j (by omega)]
      rw [Nat.add_comm]
    · rw [h2, hlast, ← reduceLanes_halve (opOf field.aggregationType)
        (opOf_comm field.aggregationType) (opOf_assoc field.aggregationType) vectorAgg (2 ^ k) hpos]
      apply reduceLanes_congr
      intro j hj
      simp only [shuffleVector, hi, reduceIdx_getD field.vectorSize (2 ^ k) j (by omega),
        mergeAggregation_eq_opOf]
      rw [Nat.add_comm]

/-- The vector body run for `q` passes from row `p`: it ends behind row
`p + q * vectorSize - 1`, with the lanes of `vecIter` and the rows
`p .. p + q * vectorSize - 1` loaded in order. -/
theorem vectorBody_run (field : AggField) (input : AggInput) (hvs : 1 ≤ field.vectorSize)
    (q : Nat) (fuel : Nat) (hfuel : q + 1 ≤ fuel) (p : Nat) (vectorNull : Nat → Nat)
    (vectorDest : Nat → Int) (rows : List Nat) :
    vectorBody field input (p + (q + 1) * field.vectorSize) fuel p vectorNull vectorDest rows =
      some ⟨p + (q + 1) * field.vectorSize,
        vecIter (nullStep field input) field.vectorSize (q + 1) p vectorNull,
        vecIter (aggStep field input) field.vectorSize (q + 1) p vectorDest,
        rows ++ List.range' p ((q + 1) * field.vectorSize)⟩ := by
  induction q generalizing fuel p vectorNull vectorDest rows with
  | zero =>
    obtain ⟨f, rfl⟩ : ∃ f, fuel = f + 1 := ⟨fuel - 1, by omega⟩
    simp only [vectorBody, zero_add, one_mul, bne_self_eq_false, Bool.false_eq_true, if_false]
    rfl
  | succ q ih =>
    obtain ⟨f, rfl⟩ : ∃ f, fuel = f + 1 := ⟨fuel - 1, by omega⟩
    have hne : (p + field.vectorSize != p + (q + 1 + 1) * field.vectorSize) = true := by
      simp only [bne_iff_ne, ne_eq]
      have : (q + 1 + 1) * field.vectorSize = (q + 1) * field.vectorSize + field.vectorSize := by
        ring
      have h2 : 1 ≤ (q + 1) * field.vectorSize := Nat.mul_pos (by omega) hvs
      omega
    have htarget : p + (q + 1 + 1) * field.vectorSize =
        (p + field.vectorSize) + (q + 1) * field.vectorSize := by ring
    simp only [vectorBody, hne, if_true]
    rw [htarget, ih f (by omega)]
    have hrows : List.range' p ((q + 1) * field.vectorSize + field.vectorSize) =
        List.range' p field.vectorSize ++
          List.range' (p + field.vectorSize) ((q + 1) * field.vectorSize) := by
      rw [List.range'_append_1]
    have hmul : (q + 1 + 1) * field.vectorSize = (q + 1) * field.vectorSize + field.vectorSize := by
      ring
    simp only [vecIter, hmul, hrows, List.append_assoc]
    rfl

/-- The scalar body run for `n + 1` passes from row `p`: the folds of the null
step and of the value step over the rows `p .. p + n`, which it loads in
order. -/
theorem scalarBody_run (field : AggField) (input : AggInput) (n : Nat) (fuel : Nat)
    (hfuel : n + 1 ≤ fuel) (p : Nat) (scalarNull : Nat) (scalarDest : Int) (rows : List Nat) :
    scalarBody field input (p + (n + 1)) fuel p scalarNull scalarDest rows =
      some (List.foldl (nullStep field input) scalarNull (List.range' p (n + 1)),
        List.foldl (aggStep field input) scalarDest (List.range' p (n + 1)),
        rows ++ List.range' p (n + 1)) := by
  induction n generalizing fuel p scalarNull scalarDest rows with
  | zero =>
    obtain ⟨f, rfl⟩ : ∃ f, fuel = f + 1 := ⟨fuel - 1, by omega⟩
    simp only [scalarBody, zero_add, bne_self_eq_false, Bool.false_eq_true, if_false]
    rfl
  | succ n ih =>
    obtain ⟨f, rfl⟩ : ∃ f, fuel = f + 1 := ⟨fuel - 1, by omega⟩
    have hne : (p + 1 != p + (n + 1 + 1)) = true := by
      simp only [bne_iff_ne, ne_eq]
      omega
    have htarget : p + (n + 1 + 1) = (p + 1) + (n + 1) := by ring
    simp only [scalarBody, hne, if_true]
    rw [htarget, ih f (by omega)]
    have hrows : List.range' p (n + 1 + 1) = p :: List.range' (p + 1) (n + 1) := rfl
    simp only [hrows, List.foldl, List.append_assoc, List.singleton_append]
    rfl

/-- The mask `-2^k` keeps the multiples of `2^k`: on a 64-bit value, and-ing
with it rounds down to a multiple of `2^k`. -/
theorem land_neg_two_pow (n k : Nat) (hn : n < 2 ^ 64) (hk : k ≤ 64) :
    n &&& (2 ^ 64 - 2 ^ k) = n / 2 ^ k * 2 ^ k := by
  have hmask : 2 ^ 64 - 2 ^ k = 2 ^ k * (2 ^ (64 - k) - 1) := by
    have h1 : (2 : Nat) ^ 64 = 2 ^ k * 2 ^ (64 - k) := by
      rw [← pow_add]
      congr 1
      omega
    have h2 : 1 ≤ 2 ^ (64 - k) := Nat.one_le_two_pow
    rw [h1, Nat.mul_sub, Nat.mul_one]
  apply Nat.eq_of_testBit_eq
  intro i
  rw [Nat.testBit_land, hmask, Nat.mul_comm (n / 2 ^ k), Nat.testBit_mul_pow_two,
    Nat.testBit_mul_pow_two, Nat.testBit_two_pow_sub_one, ← Nat.shiftRight_eq_div_pow,
    Nat.testBit_shiftRight]
  by_cases hik : k ≤ i
  · have hki : k + (i - k) = i := by omega
    rw [hki]
    by_cases hi : i < 64
    · have : i - k < 64 - k := by omega
      simp [hik, this]
    · have hlt : n < 2 ^ i := lt_of_lt_of_le hn (Nat.pow_le_pow_right (by omega) (by omega))
      simp [Nat.testBit_lt_two_pow hlt]
  · simp [hik]

/-- `vectorCount` is the row count rounded down to a multiple of the power-of-two
`vectorSize`. -/
theorem vectorCount_eq (field : AggField) (input : AggInput) (k : Nat) (hk : k < 64)
    (hvs : field.vectorSize = 2 ^ k) (hle : input.startIdx ≤ input.endIdx)
    (hend : input.endIdx < 2 ^ 64) :
    vectorCount field input =
      (input.endIdx - input.startIdx) / field.vectorSize * field.vectorSize := by
  have hpow : (2 : Nat) ^ k < 2 ^ 64 := Nat.pow_lt_pow_right (by omega) hk
  have hpos : 1 ≤ 2 ^ k := Nat.one_le_two_pow
  have h64 : (18446744073709551616 : Nat) = 2 ^ 64 := by norm_num
  have h1 : (input.endIdx + 2 ^ 64 - input.startIdx) % 2 ^ 64 = input.endIdx - input.startIdx := by
    have : input.endIdx + 2 ^ 64 - input.startIdx = (input.endIdx - input.startIdx) + 2 ^ 64 := by
      omega
    rw [this, Nat.add_mod_right, Nat.mod_eq_of_lt (by omega)]
  have h2 : (2 ^ 64 - 2 ^ k % 2 ^ 64) % 2 ^ 64 = 2 ^ 64 - 2 ^ k := by
    rw [Nat.mod_eq_of_lt hpow, Nat.mod_eq_of_lt (by omega)]
  unfold vectorCount
  rw [hvs, h64, h1, h2]
  exact land_neg_two_pow _ k (by omega) (by omega)

/-- The value lanes of the vector header combine to the previous value. -/
theorem vectorHeader_values (field : AggField) (input : AggInput) (m : Nat)
    (h1 : -9223372036854775808 ≤ input.destValue) (h2 : input.destValue < 9223372036854775808) :
    reduceLanes (opOf field.aggregationType) (vectorHeader field input).2 m = input.destValue := by
  induction m with
  | zero => unfold vectorHeader; cases field.aggregationType <;> rfl
  | succ m ih =>
    have hstep : reduceLanes (opOf field.aggregationType) (vectorHeader field input).2 (m + 1) =
        opOf field.aggregationType
          (reduceLanes (opOf field.aggregationType) (vectorHeader field input).2 m)
          ((vectorHeader field input).2 (m + 1)) := rfl
    rw [hstep, ih]
    unfold vectorHeader opOf
    cases field.aggregationType
    · exact min_self _
    · exact max_self _
    · simp only [Nat.add_one_ne_zero, if_false, add_zero]
      exact wrap64_of_inRange _ h1 h2
    · simp only [Nat.add_one_ne_zero, if_false, add_zero]
      exact wrap64_of_inRange _ h1 h2

/-- The null lanes of the vector header combine to the previous null byte. -/
theorem vectorHeader_nulls (field : AggField) (input : AggInput) (m : Nat)
    (h : input.destNullValue ≤ 1) :
    reduceLanes (fun a b => a &&& b) (vectorHeader field input).1 m = input.destNullValue := by
  induction m with
  | zero => unfold vectorHeader; cases field.aggregationType <;> rfl
  | succ m ih =>
    have hstep : reduceLanes (fun a b => a &&& b) (vectorHeader field input).1 (m + 1) =
        (reduceLanes (fun a b => a &&& b) (vectorHeader field input).1 m) &&&
          ((vectorHeader field input).1 (m + 1)) := rfl
    rw [hstep, ih]
    have h01 : input.destNullValue = 0 ∨ input.destNullValue = 1 := by omega
    unfold vectorHeader
    cases field.aggregationType
    · exact Nat.and_self _
    · exact Nat.and_self _
    · simp only [Nat.add_one_ne_zero, if_false]
      rcases h01 with h0 | h0 <;> rw [h0] <;> rfl
    · simp only [Nat.add_one_ne_zero, if_false]
      rcases h01 with h0 | h0 <;> rw [h0] <;> rfl

/-- The null step combines the null byte with the row's masked result byte
xor 1. -/
theorem nullStep_eq (field : AggField) (input : AggInput) (null : Nat) (row : Nat) :
    nullStep field input null row =
      applyContribution (fun a b => a &&& b) null (some (maskedResult field input row ^^^ 1)) :=
  rfl

/-- The vector blocks: for a power-of-two `vectorSize`, the vector end block is
reached behind the first `(n / vectorSize) * vectorSize` rows, which the vector
loop loaded in order; the value is the fold of the scalar step over these rows
from the previous value, and so is the null byte. -/
theorem vectorEnd_run (field : AggField) (input : AggInput) (undefNull : Nat → Nat → Nat)
    (undefAgg : Nat → Nat → Int) (k : Nat) (hk : k < 64) (hvs : field.vectorSize = 2 ^ k)
    (hle : input.startIdx ≤ input.endIdx) (hend : input.endIdx < 2 ^ 64) (fuel : Nat)
    (hfuel : input.endIdx - input.startIdx ≤ fuel) :
    ∃ vn va, vectorEnd field undefNull undefAgg fuel input =
        some (input.startIdx + (input.endIdx - input.startIdx) / field.vectorSize * field.vectorSize,
          vn, va,
          List.range' input.startIdx
            ((input.endIdx - input.startIdx) / field.vectorSize * field.vectorSize)) ∧
      ((-9223372036854775808 ≤ input.destValue ∧ input.destValue < 9223372036854775808) →
        va = List.foldl (aggStep field input) input.destValue
          (List.range' input.startIdx
            ((input.endIdx - input.startIdx) / field.vectorSize * field.vectorSize))) ∧
      (input.destNullValue ≤ 1 →
        vn = List.foldl (nullStep field input) input.destNullValue
          (List.range' input.startIdx
            ((input.endIdx - input.startIdx) / field.vectorSize * field.vectorSize))) := by
  have hpos : 1 ≤ field.vectorSize := by rw [hvs]; exact Nat.one_le_two_pow
  have hvc := vectorCount_eq field input k hk hvs hle hend
  generalize hq : (input.endIdx - input.startIdx) / field.vectorSize = q at hvc ⊢
  cases q with
  | zero =>
    refine ⟨input.destNullValue, input.destValue, ?_, ?_, ?_⟩
    · simp [vectorEnd, hvc]
    · intro _; simp
    · intro _; simp
  | succ q =>
    have hqle : (q + 1) * field.vectorSize ≤ input.endIdx - input.startIdx := by
      rw [← hq]; exact Nat.div_mul_le_self _ _
    have hq1 : q + 1 ≤ fuel := by
      have : q + 1 ≤ (q + 1) * field.vectorSize := Nat.le_mul_of_pos_right _ hpos
      omega
    have hne : ((q + 1) * field.vectorSize != 0) = true := by
      simp only [bne_iff_ne, ne_eq]
      have : 1 ≤ (q + 1) * field.vectorSize := Nat.mul_pos (by omega) hpos
      omega
    have hrun := vectorBody_run field input hpos q fuel hq1 input.startIdx
      (vectorHeader field input).1 (vectorHeader field input).2 []
    have hmerge := vectorMerge_lane0 field undefNull undefAgg k field.vectorSize
      (by rw [hvs]; exact le_of_lt (Nat.lt_two_pow k))
      (vecIter (nullStep field input) field.vectorSize (q + 1) input.startIdx
        (vectorHeader field input).1)
      (vecIter (aggStep field input) field.vectorSize (q + 1) input.startIdx
        (vectorHeader field input).2)
    rw [← hvs] at hmerge
    obtain ⟨m, hm⟩ : ∃ m, field.vectorSize = m + 1 := ⟨field.vectorSize - 1, by omega⟩
    have hm1 : field.vectorSize - 1 = m := by omega
    refine ⟨(vectorMerge field undefNull undefAgg field.vectorSize field.vectorSize
        (vecIter (nullStep field input) field.vectorSize (q + 1) input.startIdx
          (vectorHeader field input).1)
        (vecIter (aggStep field input) field.vectorSize (q + 1) input.startIdx
          (vectorHeader field input).2)).1 0,
      (vectorMerge field undefNull undefAgg field.vectorSize field.vectorSize
        (vecIter (nullStep field input) field.vectorSize (q + 1) input.startIdx
          (vectorHeader field input).1)
        (vecIter (aggStep field input) field.vectorSize (q + 1) input.startIdx
          (vectorHeader field input).2)).2 0, ?_, ?_, ?_⟩
    · simp only [vectorEnd, hvc, hne, if_true, hrun, List.nil_append]
    · intro hr
      have hfold := reduceLanes_vecIter (opOf field.aggregationType)
        (opOf_comm field.aggregationType) (opOf_assoc field.aggregationType) (aggStep field input)
        (contribution field input) (aggStep_eq field input) (q + 1) input.startIdx m
        (vectorHeader field input).2
      rw [← hm] at hfold
      rw [hmerge.2, hm1, hfold, vectorHeader_values field input _ hr.1 hr.2]
    · intro hn
      have hfold := reduceLanes_vecIter (fun a b => a &&& b) Nat.land_comm Nat.land_assoc
        (nullStep field input) (fun r => some (maskedResult field input r ^^^ 1))
        (nullStep_eq field input) (q + 1) input.startIdx m (vectorHeader field input).1
      rw [← hm] at hfold
      rw [hmerge.1, hm1, hfold, vectorHeader_nulls field input _ hn]

/-- The emitted code as a whole: for a power-of-two `vectorSize` and
`startIdx ≤ endIdx`, with fuel for one pass per row, it returns; the vector loop
loaded the first `(n / vectorSize) * vectorSize` rows and the scalar loop the
remaining `n % vectorSize`, in order; the stored value is the fold of the scalar
step over all rows from the previous value (a 64-bit value), and the stored
null byte the fold of the null step from the previous null byte (0 or 1). -/
theorem aggregateField_run (field : AggField) (input : AggInput) (undefNull : Nat → Nat → Nat)
    (undefAgg : Nat → Nat → Int) (k : Nat) (hk : k < 64) (hvs : field.vectorSize = 2 ^ k)
    (hle : input.startIdx ≤ input.endIdx) (hend : input.endIdx < 2 ^ 64) (fuel : Nat)
    (hfuel : input.endIdx - input.startIdx ≤ fuel) :
    ∃ out, aggregateField field undefNull undefAgg fuel input = some out ∧
      out.vectorRows = List.range' input.startIdx
        ((input.endIdx - input.startIdx) / field.vectorSize * field.vectorSize) ∧
      out.scalarRows = List.range'
        (input.startIdx + (input.endIdx - input.startIdx) / field.vectorSize * field.vectorSize)
        ((input.endIdx - input.startIdx) % field.vectorSize) ∧
      ((-9223372036854775808 ≤ input.destValue ∧ input.destValue < 9223372036854775808) →
        out.aggResult = List.foldl (aggStep field input) input.destValue
          (List.range' input.startIdx (input.endIdx - input.startIdx))) ∧
      (input.destNullValue ≤ 1 →
        out.nullResult = if field.destNullable then
          some (List.foldl (nullStep field input) input.destNullValue
            (List.range' input.startIdx (input.endIdx - input.startIdx))) else none) := by
  obtain ⟨vn, va, hve, hva, hvn⟩ :=
    vectorEnd_run field input undefNull undefAgg k hk hvs hle hend fuel hfuel
  have hsplit : (input.endIdx - input.startIdx) / field.vectorSize * field.vectorSize +
      (input.endIdx - input.startIdx) % field.vectorSize = input.endIdx - input.startIdx :=
    Nat.div_add_mod' _ _
  generalize (input.endIdx - input.startIdx) / field.vectorSize * field.vectorSize = vc
    at hve hva hvn hsplit ⊢
  generalize hrem : (input.endIdx - input.startIdx) % field.vectorSize = rem at hsplit ⊢
  have hrows : List.range' input.startIdx (input.endIdx - input.startIdx) =
      List.range' input.startIdx vc ++ List.range' (input.startIdx + vc) rem := by
    rw [← hsplit, Nat.add_comm vc rem, List.range'_append_1]
  cases rem with
  | zero =>
    have heq : (input.startIdx + vc != input.endIdx) = false := by
      simp only [bne_eq_false_iff_eq]
      omega
    refine ⟨⟨if field.destNullable then some vn else none, va, List.range' input.startIdx vc, []⟩,
      ?_, rfl, rfl, ?_, ?_⟩
    · simp only [aggregateField, hve, heq, Bool.false_eq_true, if_false]
    · intro hr
      simp only [hrows, List.range', List.append_nil]
      exact hva hr
    · intro hn
      simp only [hrows, List.range', List.append_nil, hvn hn]
  | succ r =>
    have hne : (input.startIdx + vc != input.endIdx) = true := by
      simp only [bne_iff_ne, ne_eq]
      omega
    have hendeq : input.endIdx = (input.startIdx + vc) + (r + 1) := by omega
    have hrun := scalarBody_run field input r fuel (by omega) (input.startIdx + vc) vn va []
    rw [← hendeq] at hrun
    refine ⟨⟨if field.destNullable then
        some (List.foldl (nullStep field input) vn (List.range' (input.startIdx + vc) (r + 1)))
        else none,
      List.foldl (aggStep field input) va (List.range' (input.startIdx + vc) (r + 1)),
      List.range' input.startIdx vc, List.range' (input.startIdx + vc) (r + 1)⟩, ?_, rfl, rfl, ?_, ?_⟩
    · simp only [aggregateField, hve, hne, if_true, hrun, List.nil_append]
    · intro hr
      simp only [hrows, List.foldl_append, hva hr]
    · intro hn
      simp only [hrows, List.foldl_append, hvn hn]

/-- With result and null bytes in `{0, 1}`, the bit the loops hand to
`buildAggregation` says that the row takes part. -/
theorem rowSelected_eq_takesPart (field : AggField) (input : AggInput) (row : Nat)
    (hres : input.result row ≤ 1) (hnull : input.srcNull row ≤ 1) :
    rowSelected field input row = takesPart field input row := by
  have h1 : input.result row = 0 ∨ input.result row = 1 := by omega
  have h2 : input.srcNull row = 0 ∨ input.srcNull row = 1 := by omega
  unfold rowSelected takesPart maskedResult truncI1
  cases field.srcNullable <;> rcases h1 with h1 | h1 <;> rcases h2 with h2 | h2 <;>
    rw [h1, h2] <;> rfl

/-- With result and null bytes in `{0, 1}`, the values of the rows whose
selection bit is set are the values of the rows that take part. -/
theorem selectedSrc_eq_selectedValues (field : AggField) (input : AggInput) (rows : List Nat)
    (hres : ∀ r, input.result r ≤ 1) (hsrc : ∀ r, input.srcNull r ≤ 1) :
    selectedSrc field input rows = selectedValues field input rows := by
  have h : rowSelected field input = takesPart field input :=
    funext (fun r => rowSelected_eq_takesPart field input r (hres r) (hsrc r))
  unfold selectedSrc selectedValues
  rw [h]

/-- With no rows, the emitted code runs neither loop body and stores the
previous null byte and value back, whatever the fuel and the vector size. -/
theorem aggregateField_empty (field : AggField) (input : AggInput) (undefNull : Nat → Nat → Nat)
    (undefAgg : Nat → Nat → Int) (fuel : Nat) (h : input.startIdx = input.endIdx) :
    aggregateField field undefNull undefAgg fuel input =
      some ⟨if field.destNullable then some input.destNullValue else none, input.destValue,
        [], []⟩ := by
  have hvc : vectorCount field input = 0 := by
    unfold vectorCount
    rw [h]
    have : input.endIdx + 18446744073709551616 - input.endIdx = 18446744073709551616 := by omega
    rw [this]
    simp
  simp [aggregateField, vectorEnd, hvc, h]

/-- The fold of the scalar step for `MIN` is the minimum of the previous value
and the selected values. -/
theorem foldl_aggStep_min (field : AggField) (input : AggInput)
    (ht : field.aggregationType = AggregationType.MIN) (dest : Int) (rows : List Nat) :
    List.foldl (aggStep field input) dest rows =
      List.foldl min dest (selectedSrc field input rows) := by
  induction rows generalizing dest with
  | nil => rfl
  | cons r rows ih =>
    simp only [List.foldl, selectedSrc, List.filter]
    rw [ih]
    have hstep := aggStep_eq field input dest r
    unfold contribution applyContribution at hstep
    rw [ht] at hstep
    cases hs : rowSelected field input r
    · simp only [hs, Bool.false_eq_true, if_false] at hstep
      rw [hstep]
      rfl
    · simp only [hs, if_true, opOf] at hstep
      rw [hstep]
      rfl

/-- The fold of the scalar step for `MAX` is the maximum of the previous value
and the selected values. -/
theorem foldl_aggStep_max (field : AggField) (input : AggInput)
    (ht : field.aggregationType = AggregationType.MAX) (dest : Int) (rows : List Nat) :
    List.foldl (aggStep field input) dest rows =
      List.foldl max dest (selectedSrc field input rows) := by
  induction rows generalizing dest with
  | nil => rfl
  | cons r rows ih =>
    simp only [List.foldl, selectedSrc, List.filter]
    rw [ih]
    have hstep := aggStep_eq field input dest r
    unfold contribution applyContribution at hstep
    rw [ht] at hstep
    cases hs : rowSelected field input r
    · simp only [hs, Bool.false_eq_true, if_false] at hstep
      rw [hstep]
      rfl
    · simp only [hs, if_true, opOf] at hstep
      rw [hstep]
      rfl

/-- The fold of the scalar step for `SUM` is the previous value plus the sum of
the selected values, modulo `2^64`. -/
theorem foldl_aggStep_sum (field : AggField) (input : AggInput)
    (ht : field.aggregationType = AggregationType.SUM) (dest : Int) (rows : List Nat)
    (h1 : -9223372036854775808 ≤ dest) (h2 : dest < 9223372036854775808) :
    List.foldl (aggStep field input) dest rows =
      wrap64 (dest + (selectedSrc field input rows).sum) := by
  induction rows generalizing dest with
  | nil => simp [selectedSrc, wrap64_of_inRange dest h1 h2]
  | cons r rows ih =>
    simp only [List.foldl, selectedSrc, List.filter]
    have hstep := aggStep_eq field input dest r
    unfold contribution applyContribution at hstep
    rw [ht] at hstep
    cases hs : rowSelected field input r
    · simp only [hs, Bool.false_eq_true, if_false] at hstep
      rw [hstep, ih dest h1 h2]
      rfl
    · simp only [hs, if_true, opOf] at hstep
      rw [hstep, ih _ (wrap64_inRange _).1 (wrap64_inRange _).2]
      simp only [List.map_cons, List.sum_cons, selectedSrc]
      rw [wrap64_add_wrap64_left, add_assoc]

/-- The fold of the scalar step for `CNT` is the previous value plus the number
of selected rows, modulo `2^64`. -/
theorem foldl_aggStep_cnt (field : AggField) (input : AggInput)
    (ht : field.aggregationType = AggregationType.CNT) (dest : Int) (rows : List Nat)
    (h1 : -9223372036854775808 ≤ dest) (h2 : dest < 9223372036854775808) :
    List.foldl (aggStep field input) dest rows =
      wrap64 (dest + (selectedSrc field input rows).length) := by
  induction rows generalizing dest with
  | nil => simp [selectedSrc, wrap64_of_inRange dest h1 h2]
  | cons r rows ih =>
    simp only [List.foldl, selectedSrc, List.filter]
    have hstep := aggStep_eq field input dest r
    unfold contribution applyContribution at hstep
    rw [ht] at hstep
    simp only [opOf] at hstep
    cases hs : rowSelected field input r
    · simp only [hs, Bool.false_eq_true, if_false, add_zero] at hstep
      rw [hstep, ih _ (wrap64_inRange _).1 (wrap64_inRange _).2, wrap64_add_wrap64_left]
      rfl
    · simp only [hs, if_true] at hstep
      rw [hstep, ih _ (wrap64_inRange _).1 (wrap64_inRange _).2, wrap64_add_wrap64_left]
      simp only [List.map_cons, List.length_cons, selectedSrc, Nat.cast_add, Nat.cast_one]
      congr 1
      ring

/-- The fold of the null step: with bytes in `{0, 1}`, the null byte stays 1
exactly as long as no row takes part. -/
theorem foldl_nullStep (field : AggField) (input : AggInput) (null : Nat) (rows : List Nat)
    (hnull : null ≤ 1) (hres : ∀ r, input.result r ≤ 1) (hsrc : ∀ r, input.srcNull r ≤ 1) :
    List.foldl (nullStep field input) null rows =
      if null = 1 ∧ rows.all (fun r => !takesPart field input r) = true then 1 else 0 := by
  induction rows generalizing null with
  | nil =>
    have : null = 0 ∨ null = 1 := by omega
    rcases this with h | h <;> simp [h]
  | cons r rows ih =>
    have hstep : nullStep field input null r =
        if null = 1 ∧ takesPart field input r = false then 1 else 0 := by
      have h0 : null = 0 ∨ null = 1 := by omega
      have h1 : input.result r = 0 ∨ input.result r = 1 := by have := hres r; omega
      have h2 : input.srcNull r = 0 ∨ input.srcNull r = 1 := by have := hsrc r; omega
      unfold nullStep nullAggregate maskedResult takesPart
      cases field.srcNullable <;> rcases h0 with h0 | h0 <;> rcases h1 with h1 | h1 <;>
        rcases h2 with h2 | h2 <;> rw [h0, h1, h2] <;> rfl
    simp only [List.foldl, List.all_cons]
    rw [ih _ (by rw [hstep]; split <;> omega), hstep]
    have h0 : null = 0 ∨ null = 1 := by omega
    rcases h0 with h0 | h0 <;> by_cases ht : takesPart field input r = true <;> simp [h0, ht]

/-! ## The claims -/

/-- Claim C1, on the code: `insert(1, [12])` under `snapshot10` into a table
that holds no record for key 1.  With a sealed entry for key 2 in the insert
log the call never returns; with an empty insert log the re-scan loop is
skipped, the assertion behind it fires, `succeeded` keeps its old value, the
appended entry stays unsealed, and `get(1)` under the same snapshot finds
nothing. -/
theorem insert_then_get_on_code (spaceOverhead : RecType → Nat) (fuel : Nat) :
    (tableKey2.mHashTable.get 1 = none ∧
      tableKey2.mInsertLog.all (fun e => e.sealed && e.record.key != 1) = true) ∧
    Table.insert spaceOverhead fuel tableKey2 1 [12] snapshot10 (some false) = none ∧
    Table.insert spaceOverhead (fuel + 1) emptyTable 1 [12] snapshot10 (some false) =
      some (InsertOutcome.assertFailed
        { emptyTable with mInsertLog := [appendedEntry spaceOverhead false false 1 [12] 10] }
        (some false)) ∧
    (Table.get { emptyTable with mInsertLog := [appendedEntry spaceOverhead false false 1 [12] 10] }
      1 noOut snapshot10).1 = false := by
  refine ⟨⟨rfl, by decide⟩, ?_, rfl, rfl⟩
  exact insertLoop_stays 1 snapshot10 _ _ _ _ 0 (by decide) (Or.inr ⟨by decide, by rfl⟩) fuel

/-- Claim C2, on the code: a sealed, valid entry for key 1 lies at position 1
of the insert log, between `begin()` and the entry that `insert(1, ...)`
appends, behind a sealed entry for key 2.  The call never gets to it and never
returns. -/
theorem insert_conflict_behind_other_key_on_code (spaceOverhead : RecType → Nat) (fuel : Nat) :
    Table.insert spaceOverhead fuel tableKey2Key1 1 [13] snapshot11 (some true) = none :=
  insertLoop_stays 1 snapshot11 _ _ _ _ 0 (by decide) (Or.inr ⟨by decide, by rfl⟩) fuel

/-- Claim C3: when the hash table has a record for the key and its
`data(snapshot)` reports `isValid` and not (`wasDeleted` and `isNewest`), then
`get` returns `!wasDeleted` with the data, size and `isNewest` of that lookup,
whatever the insert log holds. -/
theorem get_main_tier_hit (t : Table) (key : Key) (out : GetOut) (snapshot : SnapshotDescriptor)
    (rec : DMRecord) (hget : t.mHashTable.get key = some rec)
    (hvalid : (rec.data snapshot).isValid = true)
    (hnot : ¬ ((rec.data snapshot).wasDeleted = true ∧ (rec.data snapshot).isNewest = true)) :
    t.get key out snapshot = (!(rec.data snapshot).wasDeleted,
        ⟨(rec.data snapshot).size, (rec.data snapshot).data, (rec.data snapshot).isNewest⟩) ∧
      ∀ log : Log, Table.get { t with mInsertLog := log } key out snapshot =
        t.get key out snapshot := by
  have hcond : ((rec.data snapshot).isValid &&
      !((rec.data snapshot).wasDeleted && (rec.data snapshot).isNewest)) = true := by
    simp only [hvalid, Bool.true_and, Bool.not_eq_true', Bool.and_eq_false_iff]
    by_cases hw : (rec.data snapshot).wasDeleted = true
    · right
      simpa [hw] using hnot
    · left
      simpa using hw
  constructor
  · simp only [Table.get, hget, hcond]
    simp [DataResult.out]
  · intro log
    simp only [Table.get, hget, hcond]
    simp

/-- Claim C3 at key 7, live in the main tier with payload `[3]` at version 10,
read under `snapshot12`. -/
theorem get_main_tier_hit_witness :
    (tableKey7Main.mHashTable.get 7 = some entryKey7Again.record ∧
      (entryKey7Again.record.data snapshot12).isValid = true ∧
      ¬ ((entryKey7Again.record.data snapshot12).wasDeleted = true ∧
        (entryKey7Again.record.data snapshot12).isNewest = true)) ∧
    Table.get tableKey7Main 7 noOut snapshot12 = (true, ⟨1, some [3], true⟩) :=
  ⟨⟨rfl, rfl, by decide⟩,
    (get_main_tier_hit tableKey7Main 7 noOut snapshot12 entryKey7Again.record
      rfl rfl (by decide)).1⟩

/-- Claim C4: when the hash table has no record for the key, or its record
under the snapshot is invalid or yields a version that is the newest and a
delete, `get` is decided by the first entry of the insert log that is sealed,
valid, has the key, and does not report (`isNewest` and `wasDeleted`): it
returns `!wasDeleted` of that entry with that entry's data, and "not found"
when the log has no such entry. -/
theorem get_insert_log_scan (t : Table) (key : Key) (out : GetOut) (snapshot : SnapshotDescriptor)
    (hfall : t.mHashTable.get key = none ∨
      ∃ rec, t.mHashTable.get key = some rec ∧
        ((rec.data snapshot).isValid = false ∨
          ((rec.data snapshot).isNewest = true ∧ (rec.data snapshot).wasDeleted = true))) :
    match t.mInsertLog.find? (decidesGet key snapshot) with
    | some e => t.get key out snapshot =
        (!(e.record.data snapshot).wasDeleted, (e.record.data snapshot).out)
    | none => (t.get key out snapshot).1 = false := by
  rcases hfall with h | ⟨rec, h, hr⟩
  · simp only [Table.get, h]
    exact getScan_eq_find key snapshot t.mInsertLog out
  · have hcond : ((rec.data snapshot).isValid &&
        !((rec.data snapshot).wasDeleted && (rec.data snapshot).isNewest)) = false := by
      rcases hr with hv | ⟨hn, hw⟩
      · simp [hv]
      · simp [hn, hw]
    simp only [Table.get, h, hcond]
    exact getScan_eq_find key snapshot t.mInsertLog (rec.data snapshot).out

/-- Claim C4 at key 7, deleted at version 8 in the main tier and inserted again
at version 10 in the insert log: a read under `snapshot12` yields the new
payload `[3]` with `isNewest`, not the tombstone. -/
theorem get_insert_log_scan_witness :
    (tableKey7Reinserted.mHashTable.get 7 = some mainKey7Deleted ∧
      (mainKey7Deleted.data snapshot12).isNewest = true ∧
      (mainKey7Deleted.data snapshot12).wasDeleted = true) ∧
    Table.get tableKey7Reinserted 7 noOut snapshot12 = (true, ⟨1, some [3], true⟩) :=
  ⟨⟨rfl, rfl, rfl⟩,
    get_insert_log_scan tableKey7Reinserted 7 noOut snapshot12
      (Or.inr ⟨mainKey7Deleted, rfl, Or.inr ⟨rfl, rfl⟩⟩)⟩

/-- Claim C5, on the code: the only version of key 1 is an insert-log entry
written at version 10, which `snapshot11` does not see.  No version of the
chain is visible, and `get(1)` under `snapshot11` returns `true` with a null
data pointer. -/
theorem get_unseen_insert_on_code :
    snapshot11.visible 10 = false ∧
    firstVisible snapshot11 entryKey1.record.chain = none ∧
    Table.get tableKey1 1 noOut snapshot11 = (true, ⟨0, none, false⟩) := by
  decide

/-- Claim C6: when the hash table has a record for the key and its
`data(snapshot)` reports a valid version that is not deleted, `insert` stores
`false` through `succeeded` (when given) and returns with the table as it was:
nothing is appended. -/
theorem insert_rejected_on_main_record (spaceOverhead : RecType → Nat) (fuel : Nat) (t : Table)
    (key : Key) (data : Payload) (snapshot : SnapshotDescriptor) (succeeded : Option Bool)
    (rec : DMRecord) (hget : t.mHashTable.get key = some rec)
    (hvalid : (rec.data snapshot).isValid = true)
    (hlive : (rec.data snapshot).wasDeleted = false) :
    Table.insert spaceOverhead fuel t key data snapshot succeeded =
      some (InsertOutcome.returned t (succeeded.map (fun _ => false))) := by
  simp [Table.insert, hget, hvalid, hlive]

/-- Claim C6 at key 7, live in the main tier, with no fuel at all. -/
theorem insert_rejected_on_main_record_witness :
    (tableKey7Main.mHashTable.get 7 = some entryKey7Again.record ∧
      (entryKey7Again.record.data snapshot12).isValid = true ∧
      (entryKey7Again.record.data snapshot12).wasDeleted = false) ∧
    Table.insert spaceOverhead8 0 tableKey7Main 7 [4] snapshot12 (some true) =
      some (InsertOutcome.returned tableKey7Main (some false)) :=
  ⟨⟨rfl, rfl, rfl⟩,
    insert_rejected_on_main_record spaceOverhead8 0 tableKey7Main 7 [4] snapshot12 (some true)
      entryKey7Again.record rfl rfl rfl⟩

/-- Claim C7, on the code: key 7 was inserted at version 5 and removed at
version 8 (`remove` returns `true`), and `snapshot10` sees the delete.  With the
record still in the insert log, `insert(7, [3])` finds that entry, reverts and
seals its own and stores `false`; with the record in the main tier and a sealed
entry for key 2 in the insert log, the call never returns. -/
theorem reinsert_after_delete_on_code (spaceOverhead : RecType → Nat) (fuel : Nat) :
    Table.remove spaceOverhead8 (fuel + 1) tableKey7Inserted 7 snapshot8 =
      some (tableKey7DeletedLog, true) ∧
    snapshot10.visible 8 = true ∧
    Table.insert spaceOverhead (fuel + 1) tableKey7DeletedLog 7 [3] snapshot10 (some true) =
      some (InsertOutcome.returned
        { tableKey7DeletedLog with
          mInsertLog := [entryKey7Deleted, appendedEntry spaceOverhead true true 7 [3] 10] }
        (some false)) ∧
    Table.insert spaceOverhead fuel tableKey7DeletedMain 7 [3] snapshot10 (some true) = none := by
  refine ⟨rfl, rfl, rfl, ?_⟩
  exact insertLoop_stays 7 snapshot10 _ _ _ _ 0 (by decide) (Or.inr ⟨by decide, by rfl⟩) fuel

/-- Claim C8, on the code: key 1 has no hash-table entry and no insert-log
entry, the insert log holds a sealed entry for key 2.  Neither `update(1, ...)`
nor `remove(1)` returns. -/
theorem update_remove_missing_key_on_code (spaceOverhead : RecType → Nat) (fuel : Nat)
    (data : Payload) :
    Table.update spaceOverhead fuel tableKey2 1 data snapshot10 = none ∧
    Table.remove spaceOverhead fuel tableKey2 1 snapshot10 = none := by
  have h := genericUpdateScan_stays [entryKey2] 1 1 0 (by decide) (by decide) fuel
  constructor
  · simp [Table.update, Table.genericUpdate, tableKey2, emptyTable, HashTable.get, h]
  · simp [Table.remove, Table.genericUpdate, tableKey2, emptyTable, HashTable.get, h]

/-- Claim C9, on the code: key 1 has no hash-table entry and its head record is
the valid insert-log entry at position 1, behind an entry for key 2.  Neither
`update(1, ...)` nor `remove(1)` returns. -/
theorem update_remove_head_in_log_on_code (spaceOverhead : RecType → Nat) (fuel : Nat)
    (data : Payload) :
    tableKey2Key1.mHashTable.get 1 = none ∧
    tableKey2Key1.mInsertLog.find? (fun e => e.record.isValidDataRecord && e.record.key == 1) =
      some entryKey1 ∧
    Table.update spaceOverhead fuel tableKey2Key1 1 data snapshot10 = none ∧
    Table.remove spaceOverhead fuel tableKey2Key1 1 snapshot10 = none := by
  have h := genericUpdateScan_stays [entryKey2, entryKey1] 1 2 0 (by decide) (by decide) fuel
  refine ⟨rfl, by decide, ?_, ?_⟩
  · simp [Table.update, Table.genericUpdate, tableKey2Key1, emptyTable, HashTable.get, h]
  · simp [Table.remove, Table.genericUpdate, tableKey2Key1, emptyTable, HashTable.get, h]

/-- Claim C10, on the code: in the table that holds key 1 as a sealed insert-log
entry, `get(1)` under `snapshot10` finds the payload, and `runGC` never
returns, for every `minVersion` and whatever `Page::gc` does. -/
theorem runGC_on_sealed_insert_on_code {σ : Type} (gc : PageGc σ) (fuel : Nat) (mem : σ)
    (minVersion : Version) :
    Table.get tableKey1 1 noOut snapshot10 = (true, ⟨1, some [12], true⟩) ∧
    Table.runGC gc fuel tableKey1 mem minVersion = none := by
  have h := buildInsertMap_stays [entryKey1] 1 0 (by decide) (by decide) fuel []
  refine ⟨by decide, ?_⟩
  simp [Table.runGC, tableKey1, emptyTable, h]

/-- Claim C11: on a table whose insert log and page list are empty, `runGC`
returns for every `minVersion` (one unit of fuel is enough), `Page::gc` is not
invoked (its memory and the record of its calls are as before), the published
page list is empty, and the insert log, the update log and the hash table are
as before.  The one change is the fill page taken from the allocator. -/
theorem runGC_untouched_table {σ : Type} (gc : PageGc σ) (fuel : Nat) (t : Table) (mem : σ)
    (calls : List PageArg) (minVersion : Version) (hlog : t.mInsertLog = [])
    (hpages : t.mPages = []) :
    Table.runGC (PageGc.traced gc) (fuel + 1) t (mem, calls) minVersion =
      some ({ t with mPages := [], mPageManager := t.mPageManager + 1 }, (mem, calls)) := by
  simp [Table.runGC, Table.buildInsertMap, Table.gcPages, Table.gcInserts, PageManager.alloc,
    hlog, hpages]

/-- Claim C11 at the table right after construction, `minVersion` 7. -/
theorem runGC_untouched_table_witness :
    (emptyTable.mInsertLog = [] ∧ emptyTable.mPages = []) ∧
    Table.runGC (PageGc.traced gcFullOnce) 1 emptyTable (0, []) 7 =
      some ({ emptyTable with mPageManager := 1 }, (0, [])) :=
  ⟨⟨rfl, rfl⟩, runGC_untouched_table gcFullOnce 0 emptyTable 0 [] 7 rfl rfl⟩

/-- Claim C12, on the code: the insert log holds one entry, sealed and reverted,
for key 1, and the hash table has nothing for key 1.  The re-scan loop of
`insert(1, ...)` never ends, for every payload, snapshot and `succeeded`. -/
theorem insert_rescan_never_ends_on_code (spaceOverhead : RecType → Nat) (fuel : Nat)
    (data : Payload) (snapshot : SnapshotDescriptor) (succeeded : Option Bool) :
    (tableKey1Reverted.mHashTable.get 1 = none ∧
      tableKey1Reverted.mInsertLog.all (fun e => e.sealed) = true) ∧
    Table.insert spaceOverhead fuel tableKey1Reverted 1 data snapshot succeeded = none := by
  refine ⟨⟨rfl, rfl⟩, ?_⟩
  exact insertLoop_stays 1 snapshot _ _ _ _ 0 (by decide) (Or.inr ⟨by decide, by rfl⟩) fuel

/-- Claim C13, on the code: every `insert` into the table right after
construction, whose insert log is empty when the iterators are taken, leaves
the re-scan loop at once and runs into `LOG_ASSERT(false)`, with the appended
entry unsealed and `succeeded` not written. -/
theorem insert_assertion_reached_on_code (spaceOverhead : RecType → Nat) (fuel : Nat) (key : Key)
    (data : Payload) (snapshot : SnapshotDescriptor) (succeeded : Option Bool) :
    Table.insert spaceOverhead (fuel + 1) emptyTable key data snapshot succeeded =
      some (InsertOutcome.assertFailed
        { emptyTable with
          mInsertLog := [appendedEntry spaceOverhead false false key data snapshot.version] }
        succeeded) := by
  rfl

/-- Claim C14, on the code: with `succeeded == nullptr`, the rejection at the
main-tier check returns without a store, but on the conflict path (a sealed
valid entry for key 1 at `begin()`) `insert(1, ...)` reverts and seals its
entry and then stores through the null pointer. -/
theorem insert_null_succeeded_on_code (spaceOverhead : RecType → Nat) (fuel : Nat)
    (data : Payload) (snapshot : SnapshotDescriptor) :
    Table.insert spaceOverhead fuel tableKey7Main 7 data snapshot12 none =
      some (InsertOutcome.returned tableKey7Main none) ∧
    Table.insert spaceOverhead (fuel + 1) tableKey1 1 data snapshot none =
      some (InsertOutcome.nullDeref
        { emptyTable with
          mInsertLog := [entryKey1,
            appendedEntry spaceOverhead true true 1 data snapshot.version] }) :=
  ⟨rfl, rfl⟩

/-- Claim C15, on the code: key 1 has no hash-table entry, the first entry of
the insert log is a reverted one and the valid entry for key 1 comes behind
it.  One pass through the scan of `genericUpdate` leaves the iterator at
position 0, the scan never ends, and neither `update(1, ...)` nor `remove(1)`
returns. -/
theorem genericUpdate_scan_never_ends_on_code (spaceOverhead : RecType → Nat) (fuel : Nat)
    (data : Payload) (snapshot : SnapshotDescriptor) :
    Table.genericUpdateScan tableKey1RevertedKey1.mInsertLog 1 2 (fuel + 1) 0 =
      Table.genericUpdateScan tableKey1RevertedKey1.mInsertLog 1 2 fuel 0 ∧
    Table.genericUpdateScan tableKey1RevertedKey1.mInsertLog 1 2 fuel 0 = none ∧
    Table.update spaceOverhead fuel tableKey1RevertedKey1 1 data snapshot = none ∧
    Table.remove spaceOverhead fuel tableKey1RevertedKey1 1 snapshot = none := by
  have h := genericUpdateScan_stays [entryKey1Reverted, entryKey1] 1 2 0 (by decide) (by decide) fuel
  refine ⟨rfl, h, ?_, ?_⟩
  · simp [Table.update, Table.genericUpdate, tableKey1RevertedKey1, emptyTable, HashTable.get, h]
  · simp [Table.remove, Table.genericUpdate, tableKey1RevertedKey1, emptyTable, HashTable.get, h]

/-- Claim C16: when two tables have the same hash table and their insert logs
differ only in entries that are not sealed, `get` returns the same in both; and
`get` returns what it returns on the sealed entries alone. -/
theorem get_ignores_unsealed (t1 t2 : Table) (key : Key) (out : GetOut)
    (snapshot : SnapshotDescriptor) (hht : t1.mHashTable = t2.mHashTable)
    (hlog : sameUpToUnsealed t1.mInsertLog t2.mInsertLog = true) :
    t1.get key out snapshot = t2.get key out snapshot ∧
      t1.get key out snapshot =
        Table.get { t1 with mInsertLog := t1.mInsertLog.filter (fun e => e.sealed) }
          key out snapshot := by
  constructor
  · simp only [Table.get, ← hht]
    cases t1.mHashTable.get key with
    | none => exact getScan_sameUpToUnsealed key snapshot _ _ out hlog
    | some rec =>
      simp only [getScan_sameUpToUnsealed key snapshot _ _ (rec.data snapshot).out hlog]
  · simp only [Table.get]
    cases t1.mHashTable.get key with
    | none => exact getScan_filter_sealed key snapshot _ out
    | some rec =>
      simp only [← getScan_filter_sealed key snapshot t1.mInsertLog (rec.data snapshot).out]

/-- Claim C16 at an unsealed entry for key 1 against an unsealed entry of other
content: `get(1)` finds nothing in either table and leaves the out-parameters
alone. -/
theorem get_ignores_unsealed_witness :
    (tableKey1Unsealed.mHashTable = tableOtherUnsealed.mHashTable ∧
      sameUpToUnsealed tableKey1Unsealed.mInsertLog tableOtherUnsealed.mInsertLog = true) ∧
    Table.get tableKey1Unsealed 1 noOut snapshot10 =
      Table.get tableOtherUnsealed 1 noOut snapshot10 ∧
    Table.get tableKey1Unsealed 1 noOut snapshot10 = (false, noOut) :=
  ⟨⟨rfl, by decide⟩,
    (get_ignores_unsealed tableKey1Unsealed tableOtherUnsealed 1 noOut snapshot10 rfl
      (by decide)).1, by decide⟩

/-- Claim C17: the entry `insert` appends goes behind the insert log, not
sealed, with size `size + spaceOverhead(LOG_INSERT)`, type `LOG_INSERT`, the
key, and the one-node chain of the snapshot's version and the caller's bytes
(nothing behind it: `previous` is null); the entries of `update` and `remove`
go behind the update log with `LOG_UPDATE`, `size + spaceOverhead(LOG_UPDATE)`
and the caller's bytes, and with `LOG_DELETE`, `spaceOverhead(LOG_DELETE)` and
no payload.  `insert` runs its re-scan on the table so written, unless it is
rejected at the main-tier check; `update` and `remove` hand their append to
`genericUpdate`. -/
theorem appended_entry_header (spaceOverhead : RecType → Nat) (fuel : Nat) (t : Table) (key : Key)
    (data : Payload) (snapshot : SnapshotDescriptor) (succeeded : Option Bool) :
    Table.insertAppend spaceOverhead key data snapshot t =
      ({ t with mInsertLog := t.mInsertLog ++
          [⟨false, data.length + spaceOverhead RecType.LOG_INSERT,
            ⟨RecType.LOG_INSERT, key, false, [⟨snapshot.version, some data⟩]⟩⟩] },
        t.mInsertLog.length) ∧
    Table.updateAppend spaceOverhead key data snapshot t =
      ({ t with mUpdateLog := t.mUpdateLog ++
          [⟨false, data.length + spaceOverhead RecType.LOG_UPDATE,
            ⟨RecType.LOG_UPDATE, key, false, [⟨snapshot.version, some data⟩]⟩⟩] },
        t.mUpdateLog.length) ∧
    Table.removeAppend spaceOverhead key snapshot t =
      ({ t with mUpdateLog := t.mUpdateLog ++
          [⟨false, spaceOverhead RecType.LOG_DELETE,
            ⟨RecType.LOG_DELETE, key, false, [⟨snapshot.version, none⟩]⟩⟩] },
        t.mUpdateLog.length) ∧
    Table.insert spaceOverhead fuel t key data snapshot succeeded =
      (if (match t.mHashTable.get key with
          | some rec => (rec.data snapshot).isValid &&
              !((rec.data snapshot).wasDeleted && (rec.data snapshot).isNewest)
          | none => false) = true
        then some (InsertOutcome.returned t (succeeded.map (fun _ => false)))
        else Table.insertLoop key snapshot (Table.insertAppend spaceOverhead key data snapshot t).2
          t.mInsertLog.length succeeded fuel
          (Table.insertAppend spaceOverhead key data snapshot t).1 0) ∧
    Table.update spaceOverhead fuel t key data snapshot =
      Table.genericUpdate (Table.updateAppend spaceOverhead key data snapshot) fuel t key
        snapshot ∧
    Table.remove spaceOverhead fuel t key snapshot =
      Table.genericUpdate (Table.removeAppend spaceOverhead key snapshot) fuel t key snapshot := by
  refine ⟨?_, ?_, ?_, rfl, rfl, rfl⟩
  · simp [Table.insertAppend, Log.append, Log.writeRecord, Log.entryAt, append_set_last,
      LogEntry.blank]
  · simp [Table.updateAppend, Log.append, Log.writeRecord, Log.entryAt, append_set_last,
      LogEntry.blank]
  · simp [Table.removeAppend, Log.append, Log.writeRecord, Log.entryAt, append_set_last,
      LogEntry.blank]

/-- Claim C18, on the code: on an insert log of one sealed entry, one pass
through the first loop of `runGC` pushes position 0 and stays at position 0,
so the entry is pushed again on every pass and the loop never ends; it never
ends on a sealed reverted entry either. -/
theorem buildInsertMap_never_ends_on_code (fuel : Nat) (insertMap : InsertMap) :
    Table.buildInsertMap [entryKey2] 1 (fuel + 1) 0 insertMap =
      Table.buildInsertMap [entryKey2] 1 fuel 0 (insertMap.pushBack 2 0) ∧
    Table.buildInsertMap [entryKey2] 1 fuel 0 insertMap = none ∧
    Table.buildInsertMap [entryKey1Reverted] 1 fuel 0 insertMap = none :=
  ⟨rfl, buildInsertMap_stays [entryKey2] 1 0 (by decide) (by decide) fuel insertMap,
    buildInsertMap_stays [entryKey1Reverted] 1 0 (by decide) (by decide) fuel insertMap⟩

/-- Claim C19, on the code: the page list is `[1, 2, 3]` and `Page::gc` reports
page 2 as merged.  `runGC` invokes `gc` on page 1 and on page 2 and returns;
page 3, which follows the removed slot, is never handed to `gc` and is
published as it was. -/
theorem runGC_skips_page_on_code (fuel : Nat) (minVersion : Version) :
    Table.runGC (PageGc.traced gcMergeSecond) (fuel + 3) tableThreePages ((), []) minVersion =
      some ({ tableThreePages with mPages := [some 100, some 3], mPageManager := 101 },
        ((), [PageArg.page (some 1), PageArg.page (some 2)])) ∧
    PageArg.page (some 3) ∉ [PageArg.page (some 1), PageArg.page (some 2)] :=
  ⟨rfl, by decide⟩

/-- Claim C20, on the code: the page list is `[1]`; the first call of `Page::gc`
reports `done = false` and returns the full fill page 100, the second call
finishes into fill page 101.  The loop over the pages puts page 100 into the
local `newPages` only, and `runGC` publishes `[101]`: page 100 is not in the
published list. -/
theorem runGC_drops_full_page_on_code (fuel : Nat) (minVersion : Version) :
    ((gcFullOnce 0 (PageArg.page (some 1)) minVersion [] (some 100)).done = false ∧
      (gcFullOnce 0 (PageArg.page (some 1)) minVersion [] (some 100)).newPtr = some 100) ∧
    (Table.gcPages gcFullOnce minVersion (fuel + 3) ⟨0, 101, [], [some 1], [], some 100⟩ 0).map
        (fun l => (l.nPages, l.newPages)) = some ([some 101], [some 100]) ∧
    Table.runGC (PageGc.traced gcFullOnce) (fuel + 3) tableOnePage (0, []) minVersion =
      some ({ tableOnePage with mPages := [some 101], mPageManager := 102 },
        (2, [PageArg.page (some 1), PageArg.page (some 1)])) ∧
    some 100 ∉ ([some 101] : PageList) :=
  ⟨⟨rfl, rfl⟩, rfl, rfl, by decide⟩

/-- Claim C21: when the loop `while (!insertMap.empty())` of `runGC`, started
behind the loop over the pages with the locals `l`, is left with the locals
`l1`, it has made some number `n` of packing rounds {allocate a fresh page, run
`gc` over the dummy page, append the fresh page}: the insert map was non-empty
before each round and is empty at the end, `nPages` is the list left by the
loop over the pages followed by the `n` fresh pages in order of allocation,
`gc` was invoked `n` more times, each time on the dummy page, any fuel above
`n` gives the same result, and `runGC` publishes exactly `l1.nPages`. -/
theorem runGC_packs_pending_inserts {σ : Type} (gc : PageGc σ) (minVersion : Version)
    (fuel : Nat) (l l1 : GcLocals (σ × List PageArg))
    (h : Table.gcInserts (PageGc.traced gc) minVersion fuel l = some l1) :
    ∃ n, n < fuel ∧
      l1 = Nat.iterate (Table.packRound (PageGc.traced gc) minVersion) n l ∧
      (∀ m, m < n →
        (Nat.iterate (Table.packRound (PageGc.traced gc) minVersion) m l).insertMap ≠ []) ∧
      l1.insertMap = [] ∧
      l1.nPages = l.nPages ++ (List.range' l.pageManager n).map some ∧
      l1.mem.2 = l.mem.2 ++ List.replicate n PageArg.dummyPage ∧
      (∀ fuel1, n < fuel1 → Table.gcInserts (PageGc.traced gc) minVersion fuel1 l = some l1) ∧
      (∀ (t : Table) (mem : σ × List PageArg) (insertMap : InsertMap),
        Table.buildInsertMap t.mInsertLog t.mInsertLog.length fuel 0 [] = some insertMap →
        Table.gcPages (PageGc.traced gc) minVersion fuel
          ⟨mem, t.mPageManager + 1, insertMap, t.mPages, [], some t.mPageManager⟩ 0 = some l →
        Table.runGC (PageGc.traced gc) fuel t mem minVersion =
          some ({ t with mPages := l1.nPages, mPageManager := l1.pageManager }, l1.mem)) := by
  obtain ⟨n, hn, hl1, hemp, hall⟩ :=
    gcInserts_eq_iterate (PageGc.traced gc) minVersion fuel l l1 h
  obtain ⟨h1, h2, _, _⟩ := packRound_iterate gc minVersion n l
  refine ⟨n, hn, hl1, hall, hemp, by rw [hl1, h1], by rw [hl1, h2], ?_, ?_⟩
  · intro fuel1 hf
    rw [hl1]
    exact gcInserts_of_iterate (PageGc.traced gc) minVersion n fuel1 l hf (hl1 ▸ hemp) hall
  · intro t mem insertMap hb hp
    simp only [Table.runGC, PageManager.alloc, hb, hp, h]

/-- Claim C21 with two keys pending behind the loop over the pages: two
packing rounds, on the fresh pages 101 and 102. -/
theorem runGC_packs_pending_inserts_witness :
    Table.gcInserts (PageGc.traced gcPackOne) 0 3 localsTwoPending =
      some ⟨((), [PageArg.dummyPage, PageArg.dummyPage]), 103, [],
        [some 100, some 101, some 102], [], some 102⟩ ∧
    ∃ n, n < 3 ∧
      [some 100, some 101, some 102] = [some 100] ++ (List.range' 101 n).map some ∧
      [PageArg.dummyPage, PageArg.dummyPage] = [] ++ List.replicate n PageArg.dummyPage :=
  ⟨rfl, (runGC_packs_pending_inserts gcPackOne 0 3 localsTwoPending
    ⟨((), [PageArg.dummyPage, PageArg.dummyPage]), 103, [], [some 100, some 101, some 102], [],
      some 102⟩ rfl).imp (fun _ hn => ⟨hn.1, hn.2.2.2.2.1, hn.2.2.2.2.2.1⟩)⟩

/-- Claim C22 fails on the code: on the pages 1 and 2, with a `gc` that reports
page 1 as merged, `runGC` erases slot 0, which moves page 2 into slot 0, and
then goes on with slot 1, which is behind the end.  It publishes `[some 2]`
after a single `gc` call, on page 1: the slot of page 2 holds the old pointer,
which no `gc` call returned; the call for page 2 would have returned page
100. -/
theorem runGC_keeps_unprocessed_slot_on_code (fuel : Nat) (minVersion : Version) :
    Table.runGC (PageGc.traced gcMergeFirst) (fuel + 2) tableTwoPages ((), []) minVersion =
      some ({ tableTwoPages with mPages := [some 2], mPageManager := 101 },
        ((), [PageArg.page (some 1)])) ∧
    (gcMergeFirst () (PageArg.page (some 2)) minVersion [] (some 100)).newPtr = some 100 :=
  ⟨rfl, rfl⟩

/-- Claim C23: with the `PageList` objects on a heap and `mPages` a pointer to
one of them, at whatever point `runGC` has arrived (returned or out of fuel
inside one of its loops) every `PageList` object that existed when it started,
the one `mPages` pointed to among them, is as it was; the heap has at most one
object more, the private copy at the address `heap.length`; the pointer
`mPages` is still the old one unless `runGC` has returned, and then it is the
address of the private copy; and the call returns exactly when the by-value
`Table.runGC` does, the private copy then being the list that one publishes. -/
theorem runGC_old_page_list_untouched {σ : Type} (gc : PageGc σ) (fuel : Nat) (t : Table)
    (heap : List PageList) (mPages : Nat) (mem : σ) (minVersion : Version)
    (hm : mPages < heap.length) :
    (Table.runGCShared gc fuel t heap mPages mem minVersion).1.heap.take heap.length = heap ∧
    (Table.runGCShared gc fuel t heap mPages mem minVersion).1.heap.length ≤ heap.length + 1 ∧
    (Table.runGCShared gc fuel t heap mPages mem minVersion).1.heap.getD mPages [] =
      heap.getD mPages [] ∧
    (Table.runGCShared gc fuel t heap mPages mem minVersion).1.mPages =
      (if (Table.runGCShared gc fuel t heap mPages mem minVersion).2 then heap.length
        else mPages) ∧
    (Table.runGC gc fuel { t with mPages := heap.getD mPages [] } mem minVersion).map
        (fun r => r.1.mPages) =
      (if (Table.runGCShared gc fuel t heap mPages mem minVersion).2 then
        some ((Table.runGCShared gc fuel t heap mPages mem minVersion).1.heap.getD
          (Table.runGCShared gc fuel t heap mPages mem minVersion).1.mPages [])
      else none) := by
  have key : ∀ l : PageList, (heap ++ [l]).take heap.length = heap ∧
      (heap ++ [l]).length ≤ heap.length + 1 ∧
      (heap ++ [l]).getD mPages [] = heap.getD mPages [] := by
    intro l
    refine ⟨by simp, by simp, ?_⟩
    simp [List.getD, List.getElem?_append_left hm]
  have hp : heap.length < (heap ++ [heap.getD mPages []]).length := by simp
  rcases hB : Table.buildInsertMap t.mInsertLog t.mInsertLog.length fuel 0 [] with
    _ | insertMap
  · simp [Table.runGCShared, Table.runGC, hB, List.take_length]
  · simp only [Table.runGCShared, Table.runGC, PageManager.alloc, hB]
    have hpages := gcPagesShared_refines gc minVersion heap.length fuel
      ⟨heap ++ [heap.getD mPages []], mPages, mem, t.mPageManager + 1, insertMap, [],
        some t.mPageManager⟩ 0 hp
    obtain ⟨⟨l, hl⟩, hmp⟩ := gcPagesShared_frame gc minVersion heap.length fuel
      ⟨heap ++ [heap.getD mPages []], mPages, mem, t.mPageManager + 1, insertMap, [],
        some t.mPageManager⟩ 0
    rcases hX : Table.gcPagesShared gc minVersion heap.length fuel
      ⟨heap ++ [heap.getD mPages []], mPages, mem, t.mPageManager + 1, insertMap, [],
        some t.mPageManager⟩ 0 with ⟨s, b⟩
    rw [hX] at hpages hl hmp
    simp only [heap_append_set] at hl
    simp only at hmp
    have hlocals : (⟨mem, t.mPageManager + 1, insertMap, heap.getD mPages [], [],
        some t.mPageManager⟩ : GcLocals σ) =
        GcShared.locals ⟨heap ++ [heap.getD mPages []], mPages, mem, t.mPageManager + 1,
          insertMap, [], some t.mPageManager⟩ heap.length := by
      simp [GcShared.locals, GcShared.nPages, List.getD]
    rw [hlocals, hpages]
    cases b with
    | false =>
      simp only [hl, hmp]
      obtain ⟨h1, h2, h3⟩ := key l
      exact ⟨h1, h2, h3, by simp, by simp⟩
    | true =>
      simp only [if_true]
      have hp1 : heap.length < s.heap.length := by rw [hl]; simp
      have hins := gcInsertsShared_refines gc minVersion heap.length fuel s hp1
      obtain ⟨⟨l1, hl1⟩, hmp1⟩ := gcInsertsShared_frame gc minVersion heap.length fuel s
      obtain ⟨s1, b1, hY⟩ : ∃ s1 b1,
          Table.gcInsertsShared gc minVersion heap.length fuel s = (s1, b1) := ⟨_, _, rfl⟩
      rw [hY] at hins hl1 hmp1
      simp only [hY]
      rw [hl, heap_append_set] at hl1
      simp only at hmp1 hl1
      rw [hins]
      obtain ⟨h1, h2, h3⟩ := key l1
      cases b1 with
      | false =>
        simp only [hl1, hmp1, hmp]
        exact ⟨h1, h2, h3, by simp, by simp⟩
      | true =>
        simp only [hl1]
        exact ⟨h1, h2, h3, by simp, by simp [GcShared.locals, GcShared.nPages, List.getD, hl1]⟩

/-- Claim C23 on `tableTwoPages` with `gcMergeFirst`: the by-value `runGC`
publishes `[some 2]`; on the heap the list at address 1 is still
`[some 1, some 2]`, and `mPages` points at the new object at address 3. -/
theorem runGC_old_page_list_untouched_witness :
    (1 < heapThreeLists.length) ∧
    Table.runGCShared gcMergeFirst 2 tableTwoPages heapThreeLists 1 () 0 =
      (⟨[[some 7], [some 1, some 2], [], [some 2]], 3⟩, true) ∧
    (Table.runGCShared gcMergeFirst 2 tableTwoPages heapThreeLists 1 () 0).1.heap.getD 1 [] =
      heapThreeLists.getD 1 [] :=
  ⟨by decide, by decide,
    (runGC_old_page_list_untouched gcMergeFirst 2 tableTwoPages heapThreeLists 1 () 0
      (by decide)).2.2.1⟩

/-- Claim C24: for `startIdx ≤ endIdx` and a power-of-two `vectorSize`,
`vectorCount = (endIdx - startIdx) & -vectorSize` is a multiple of `vectorSize`
not above the row count `n`, less than one vector short of it; the emitted code
returns with one unit of fuel per row; the vector loop loaded the rows
`startIdx .. startIdx + vectorCount - 1` and the scalar loop the rows from
`startIdx + vectorCount` up to `endIdx`, so that together they loaded each row
of the range once, in order, and no other row; and for `startIdx = endIdx` no
row is loaded and the previous null byte and value are stored back. -/
theorem aggregation_vector_scalar_split (field : AggField) (input : AggInput)
    (undefNull : Nat → Nat → Nat) (undefAgg : Nat → Nat → Int) (k : Nat) (hk : k < 64)
    (hvs : field.vectorSize = 2 ^ k) (hle : input.startIdx ≤ input.endIdx)
    (hend : input.endIdx < 2 ^ 64) (fuel : Nat) (hfuel : input.endIdx - input.startIdx ≤ fuel) :
    (field.vectorSize ∣ vectorCount field input ∧
      vectorCount field input ≤ input.endIdx - input.startIdx ∧
      input.endIdx - input.startIdx < vectorCount field input + field.vectorSize) ∧
    (∃ out, aggregateField field undefNull undefAgg fuel input = some out ∧
      out.vectorRows = List.range' input.startIdx (vectorCount field input) ∧
      out.scalarRows = List.range' (input.startIdx + vectorCount field input)
        (input.endIdx - input.startIdx - vectorCount field input) ∧
      out.vectorRows ++ out.scalarRows =
        List.range' input.startIdx (input.endIdx - input.startIdx)) ∧
    (input.startIdx = input.endIdx →
      aggregateField field undefNull undefAgg fuel input =
        some ⟨if field.destNullable then some input.destNullValue else none, input.destValue,
          [], []⟩) := by
  have hpos : 0 < field.vectorSize := by rw [hvs]; exact Nat.pow_pos (by omega)
  have hvc := vectorCount_eq field input k hk hvs hle hend
  have hsplit := Nat.div_add_mod' (input.endIdx - input.startIdx) field.vectorSize
  have hmod := Nat.mod_lt (input.endIdx - input.startIdx) hpos
  obtain ⟨out, hout, hv, hs, _, _⟩ :=
    aggregateField_run field input undefNull undefAgg k hk hvs hle hend fuel hfuel
  refine ⟨⟨?_, ?_, ?_⟩, ⟨out, hout, ?_, ?_, ?_⟩, ?_⟩
  · rw [hvc]; exact Dvd.intro_left _ rfl
  · rw [hvc]; omega
  · rw [hvc]; omega
  · rw [hvc]; exact hv
  · rw [hvc, hs]
    congr 1
    omega
  · rw [hv, hs, List.range'_append_1]
    congr 1
    omega
  · exact aggregateField_empty field input undefNull undefAgg fuel

/-- Claim C24 on the sample: eleven rows from row 3 and four lanes give a
`vectorCount` of 8. -/
theorem aggregation_vector_scalar_split_witness :
    ((sampleField AggregationType.SUM).vectorSize = 2 ^ 2 ∧
      sampleInput.startIdx ≤ sampleInput.endIdx ∧ sampleInput.endIdx < 2 ^ 64 ∧
      sampleInput.endIdx - sampleInput.startIdx ≤ 11) ∧
    vectorCount (sampleField AggregationType.SUM) sampleInput = 8 ∧
    (aggregateField (sampleField AggregationType.SUM) (fun _ _ => 7) (fun _ _ => 7) 11
      sampleInput).map (fun out => (out.vectorRows, out.scalarRows)) =
        some ([3, 4, 5, 6, 7, 8, 9, 10], [11, 12, 13]) ∧
    ∃ out, aggregateField (sampleField AggregationType.SUM) (fun _ _ => 7) (fun _ _ => 7) 11
        sampleInput = some out ∧
      out.vectorRows = List.range' 3 8 :=
  ⟨⟨rfl, by decide, by decide, by decide⟩, by decide, by decide,
    (aggregation_vector_scalar_split (sampleField AggregationType.SUM) sampleInput
      (fun _ _ => 7) (fun _ _ => 7) 2 (by decide) rfl (by decide) (by decide) 11
      (by decide)).2.1.imp (fun _ h => ⟨h.1, h.2.1⟩)⟩

/-- Claim C25: for integer fields, a power-of-two `vectorSize`, `startIdx ≤
endIdx` and a previous value that is a 64-bit value, the emitted code returns
with one unit of fuel per row, and the value it stores (vector header, lane-wise
loop, halving merge down to lane 0, scalar remainder) is the left fold, over the
rows of the range from the previous value, of the scalar step
`buildAggregation` on the row's selection bit.  With result and null bytes in
`{0, 1}` that bit is set iff the result byte is 1 and the source field is not
null, and the stored value is: for `MIN` and `MAX` the signed minimum and
maximum of the previous value and the selected values, for `SUM` the previous
value plus their sum modulo `2^64`, for `CNT` the previous value plus the
number of selected rows in 64-bit arithmetic, which is the exact sum whenever
that fits the signed 64-bit range. -/
theorem aggregation_vector_equals_scalar (field : AggField) (input : AggInput)
    (undefNull : Nat → Nat → Nat) (undefAgg : Nat → Nat → Int) (k : Nat) (hk : k < 64)
    (hvs : field.vectorSize = 2 ^ k) (hle : input.startIdx ≤ input.endIdx)
    (hend : input.endIdx < 2 ^ 64) (hlow : -9223372036854775808 ≤ input.destValue)
    (hhigh : input.destValue < 9223372036854775808) (fuel : Nat)
    (hfuel : input.endIdx - input.startIdx ≤ fuel) :
    ∃ out, aggregateField field undefNull undefAgg fuel input = some out ∧
      out.aggResult =
        List.foldl (fun dest row => buildAggregation field.aggregationType (input.src row) dest
            (truncI1 (maskedResult field input row)))
          input.destValue (List.range' input.startIdx (input.endIdx - input.startIdx)) ∧
      ((∀ r, input.result r ≤ 1) → (∀ r, input.srcNull r ≤ 1) →
        (∀ row, truncI1 (maskedResult field input row) = takesPart field input row) ∧
        (field.aggregationType = AggregationType.MIN →
          out.aggResult = List.foldl min input.destValue (selectedValues field input
            (List.range' input.startIdx (input.endIdx - input.startIdx)))) ∧
        (field.aggregationType = AggregationType.MAX →
          out.aggResult = List.foldl max input.destValue (selectedValues field input
            (List.range' input.startIdx (input.endIdx - input.startIdx)))) ∧
        (field.aggregationType = AggregationType.SUM →
          out.aggResult = wrap64 (input.destValue + (selectedValues field input
            (List.range' input.startIdx (input.endIdx - input.startIdx))).sum)) ∧
        (field.aggregationType = AggregationType.CNT →
          out.aggResult = wrap64 (input.destValue + (selectedValues field input
            (List.range' input.startIdx (input.endIdx - input.startIdx))).length) ∧
          (input.destValue + (selectedValues field input
              (List.range' input.startIdx (input.endIdx - input.startIdx))).length <
              9223372036854775808 →
            out.aggResult = input.destValue + (selectedValues field input
              (List.range' input.startIdx (input.endIdx - input.startIdx))).length))) := by
  obtain ⟨out, hout, _, _, hagg, _⟩ :=
    aggregateField_run field input undefNull undefAgg k hk hvs hle hend fuel hfuel
  have hfold := hagg ⟨hlow, hhigh⟩
  refine ⟨out, hout, hfold, ?_⟩
  intro hres hsrc
  have hsel := selectedSrc_eq_selectedValues field input
    (List.range' input.startIdx (input.endIdx - input.startIdx)) hres hsrc
  refine ⟨?_, ?_, ?_, ?_, ?_⟩
  · intro row
    exact rowSelected_eq_takesPart field input row (hres row) (hsrc row)
  · intro ht
    rw [hfold, ← hsel]; exact foldl_aggStep_min field input ht _ _
  · intro ht
    rw [hfold, ← hsel]; exact foldl_aggStep_max field input ht _ _
  · intro ht
    rw [hfold, ← hsel]; exact foldl_aggStep_sum field input ht _ _ hlow hhigh
  · intro ht
    have hcnt : out.aggResult = wrap64 (input.destValue + (selectedValues field input
        (List.range' input.startIdx (input.endIdx - input.startIdx))).length) := by
      rw [hfold, ← hsel]; exact foldl_aggStep_cnt field input ht _ _ hlow hhigh
    refine ⟨hcnt, ?_⟩
    intro hfit
    rw [hcnt]
    exact wrap64_of_inRange _ (by omega) hfit

/-- Claim C25 on the sample, for `SUM`: the stored value is 86, the previous
value 100 plus the selected values of the rows 4, 5, 8, 10, 11 and 13. -/
theorem aggregation_vector_equals_scalar_witness :
    ((sampleField AggregationType.SUM).vectorSize = 2 ^ 2 ∧
      sampleInput.startIdx ≤ sampleInput.endIdx ∧ sampleInput.endIdx < 2 ^ 64 ∧
      -9223372036854775808 ≤ sampleInput.destValue ∧
      sampleInput.destValue < 9223372036854775808 ∧
      sampleInput.endIdx - sampleInput.startIdx ≤ 11) ∧
    (aggregateField (sampleField AggregationType.SUM) (fun _ _ => 7) (fun _ _ => 7) 11
      sampleInput).map (fun out => out.aggResult) = some 86 ∧
    selectedValues (sampleField AggregationType.SUM) sampleInput (List.range' 3 11) =
      [1, -3, -4, -1, -5, -2] ∧
    ∃ out, aggregateField (sampleField AggregationType.SUM) (fun _ _ => 7) (fun _ _ => 7) 11
        sampleInput = some out ∧
      out.aggResult =
        List.foldl (fun dest row => buildAggregation AggregationType.SUM (sampleInput.src row)
            dest (truncI1 (maskedResult (sampleField AggregationType.SUM) sampleInput row)))
          100 (List.range' 3 11) :=
  ⟨⟨rfl, by decide, by decide, by decide, by decide, by decide⟩, by decide, by decide,
    (aggregation_vector_equals_scalar (sampleField AggregationType.SUM) sampleInput
      (fun _ _ => 7) (fun _ _ => 7) 2 (by decide) rfl (by decide) (by decide) (by decide)
      (by decide) 11 (by decide)).imp (fun _ h => ⟨h.1, h.2.1⟩)⟩

/-- Claim C26: for a nullable destination field, result and null bytes in
`{0, 1}`, every aggregation and every power-of-two `vectorSize`, the emitted
code returns with one unit of fuel per row, and the null byte it stores is 1
iff the previous null byte was 1 and no row of the range takes part; a previous
null byte of 0 stays 0; the byte does not depend on `vectorSize`, that is on how
the rows are split between the vector and the scalar loop. -/
theorem aggregation_null_flag (field : AggField) (input : AggInput)
    (undefNull : Nat → Nat → Nat) (undefAgg : Nat → Nat → Int) (k : Nat) (hk : k < 64)
    (hvs : field.vectorSize = 2 ^ k) (hle : input.startIdx ≤ input.endIdx)
    (hend : input.endIdx < 2 ^ 64) (hdest : field.destNullable = true)
    (hnull : input.destNullValue ≤ 1) (hres : ∀ r, input.result r ≤ 1)
    (hsrc : ∀ r, input.srcNull r ≤ 1) (fuel : Nat)
    (hfuel : input.endIdx - input.startIdx ≤ fuel) :
    ∃ out, aggregateField field undefNull undefAgg fuel input = some out ∧
      out.nullResult = some (if input.destNullValue = 1 ∧
        (List.range' input.startIdx (input.endIdx - input.startIdx)).all
          (fun r => !takesPart field input r) = true then 1 else 0) ∧
      (input.destNullValue = 0 → out.nullResult = some 0) := by
  obtain ⟨out, hout, _, _, _, hn⟩ :=
    aggregateField_run field input undefNull undefAgg k hk hvs hle hend fuel hfuel
  have h := hn hnull
  rw [hdest, if_pos rfl, foldl_nullStep field input _ _ hnull hres hsrc] at h
  refine ⟨out, hout, h, ?_⟩
  intro h0
  rw [h, h0]
  simp

/-- Claim C26 on the sample: the previous null byte 1 becomes 0, for four lanes
and for one lane alike. -/
theorem aggregation_null_flag_witness :
    ((sampleField AggregationType.SUM).vectorSize = 2 ^ 2 ∧
      sampleInput.startIdx ≤ sampleInput.endIdx ∧ sampleInput.endIdx < 2 ^ 64 ∧
      (sampleField AggregationType.SUM).destNullable = true ∧
      sampleInput.destNullValue ≤ 1 ∧ (∀ r, sampleInput.result r ≤ 1) ∧
      (∀ r, sampleInput.srcNull r ≤ 1) ∧ sampleInput.endIdx - sampleInput.startIdx ≤ 11) ∧
    (aggregateField (sampleField AggregationType.SUM) (fun _ _ => 7) (fun _ _ => 7) 11
      sampleInput).map (fun out => out.nullResult) = some (some 0) ∧
    (aggregateField ⟨AggregationType.SUM, true, true, 1⟩ (fun _ _ => 7) (fun _ _ => 7) 11
      sampleInput).map (fun out => out.nullResult) = some (some 0) ∧
    ∃ out, aggregateField (sampleField AggregationType.SUM) (fun _ _ => 7) (fun _ _ => 7) 11
        sampleInput = some out ∧
      out.nullResult = some (if sampleInput.destNullValue = 1 ∧
        (List.range' 3 11).all (fun r => !takesPart (sampleField AggregationType.SUM)
          sampleInput r) = true then 1 else 0) :=
  ⟨⟨rfl, by decide, by decide, rfl, by decide,
      fun r => by simp only [sampleInput]; split <;> omega,
      fun r => by simp only [sampleInput]; split <;> omega, by decide⟩,
    by decide, by decide,
    (aggregation_null_flag (sampleField AggregationType.SUM) sampleInput
      (fun _ _ => 7) (fun _ _ => 7) 2 (by decide) rfl (by decide) (by decide) rfl (by decide)
      (fun r => by simp only [sampleInput]; split <;> omega)
      (fun r => by simp only [sampleInput]; split <;> omega) 11 (by decide)).imp
      (fun _ h => ⟨h.1, h.2.1⟩)⟩

end DeltaMain
